import Mathlib

/-!
# kolah/sets: a generic set and its change-tracking variant

A shallow embedding of `set.go` and `trackable.go`.

Go maps are reference values: `Set[E]` is `map[E]struct{}`, so a `Set[E]` value is either
`nil` or the address of a map object, and every method with a value receiver still mutates
the map it refers to.  The embedding therefore passes an explicit heap of map objects.

* `GoMap E` is one map object: its keys, no key twice.
* `Heap E` is the list of allocated map objects; an address is an index into it.
* `Set E` is a map value: `nil` (`addr = none`) or an address.
* Writing to a `nil` map panics in Go; the functions that write return `Option`, and
  `none` is the panic.  Reading, `delete`, `len`, `range` and `clear` accept `nil`.
* The order in which `range` visits a map is not fixed by Go.  Every function that ranges
  takes a `RangeOrder`, an arbitrary rearrangement of the keys, for each `range` it runs.
-/

namespace Sets

set_option linter.unusedSectionVars false

variable {E : Type} [DecidableEq E]

/-! ## Go's built-in map -/

/-- One map object of type `map[E]struct{}`: the keys it holds, each once. -/
structure GoMap (E : Type) where
  keys : List E
  nodup : keys.Nodup

instance : DecidableEq (GoMap E) := fun a b =>
  decidable_of_iff (a.keys = b.keys) (by cases a; cases b; simp)

/-- The empty map object, as made by the literal `Set[E]{}` and left by `clear`. -/
def GoMap.empty : GoMap E := ⟨[], List.nodup_nil⟩

/-- The map object after `m[v] = struct{}{}`. -/
def GoMap.insert (m : GoMap E) (v : E) : GoMap E :=
  ⟨List.insert v m.keys, m.nodup.insert⟩

/-- The map object after `delete(m, v)`. -/
def GoMap.erase (m : GoMap E) (v : E) : GoMap E :=
  ⟨m.keys.erase v, m.nodup.erase v⟩

/-- The allocated map objects; the object at address `a` is the `a`-th entry. -/
abbrev Heap (E : Type) := List (GoMap E)

/-- The order in which one `range` statement visits the keys of a map: some rearrangement
of them, visiting every key exactly once. -/
structure RangeOrder (E : Type) where
  order : List E → List E
  perm : ∀ l, (order l).Perm l

/-- The range order that visits the keys as they are stored. -/
def RangeOrder.stored : RangeOrder E := ⟨id, fun l => List.Perm.refl l⟩

/-- The range order that visits the keys in the reverse of how they are stored. -/
def RangeOrder.reversed : RangeOrder E := ⟨List.reverse, fun l => List.reverse_perm l⟩

/-- Set is a set of elements: `type Set[E comparable] map[E]struct{}`.  A value of the type
is `nil` (`addr = none`) or refers to the map object at an address. -/
structure Set (E : Type) where
  addr : Option Nat
deriving DecidableEq

/-- The keys of the map a set value refers to; a `nil` map has none. -/
def Set.keys (s : Set E) (h : Heap E) : List E :=
  match s.addr with
  | none => []
  | some a =>
    match h[a]? with
    | none => []
    | some m => m.keys

/-- The set value refers to an allocated map object (it is not `nil`). -/
def Set.Live (s : Set E) (h : Heap E) : Prop :=
  match s.addr with
  | none => False
  | some a => a < h.length

instance (s : Set E) (h : Heap E) : Decidable (s.Live h) := by
  unfold Set.Live
  cases s.addr
  · exact instDecidableFalse
  · exact Nat.decLt _ _

/-- The set value is `nil` or refers to an allocated map object: it is a value a Go program
can hold, not an address out of the heap. -/
def Set.Valid (s : Set E) (h : Heap E) : Prop :=
  match s.addr with
  | none => True
  | some a => a < h.length

instance (s : Set E) (h : Heap E) : Decidable (s.Valid h) := by
  unfold Set.Valid
  cases s.addr
  · exact instDecidableTrue
  · exact Nat.decLt _ _

/-- The composite literal `Set[E]{}`: allocates a new empty map object. -/
def makemap (h : Heap E) : Set E × Heap E :=
  (⟨some h.length⟩, h ++ [GoMap.empty])

/-- The statement `s[v] = struct{}{}`; panics (`none`) on a `nil` map. -/
def mapassign (s : Set E) (v : E) (h : Heap E) : Option (Heap E) :=
  match s.addr with
  | none => none
  | some a =>
    match h[a]? with
    | none => none
    | some m => some (h.set a (m.insert v))

/-- The statement `delete(s, v)`; a no-op on a `nil` map and on an absent key. -/
def mapdelete (s : Set E) (v : E) (h : Heap E) : Heap E :=
  match s.addr with
  | none => h
  | some a =>
    match h[a]? with
    | none => h
    | some m => h.set a (m.erase v)

/-- The expression `_, ok := s[v]`. -/
def mapaccess (s : Set E) (v : E) (h : Heap E) : Bool :=
  decide (v ∈ s.keys h)

/-- The expression `len(s)`. -/
def maplen (s : Set E) (h : Heap E) : Nat :=
  (s.keys h).length

/-- The statement `clear(s)`: empties the map object in place. -/
def mapclear (s : Set E) (h : Heap E) : Heap E :=
  match s.addr with
  | none => h
  | some a =>
    match h[a]? with
    | none => h
    | some _ => h.set a GoMap.empty

/-- The keys visited by `for v := range s`, in the order of this `range`. -/
def maprange (ord : RangeOrder E) (s : Set E) (h : Heap E) : List E :=
  ord.order (s.keys h)

/-! ## set.go -/

/-- The loop `for _, v := range values { s[v] = struct{}{} }` of `New`. -/
def New.loop (s : Set E) : List E → Heap E → Option (Heap E)
  | [], h => some h
  | v :: vs, h => (mapassign s v h).bind (New.loop s vs)

/-- New creates a new set with the given values. -/
def New (values : List E) (h : Heap E) : Option (Set E × Heap E) :=
  let (s, h1) := makemap h
  (New.loop s values h1).map (fun h2 => (s, h2))

/-- Add adds an element to the set; it returns the receiver. -/
def Set.Add (s : Set E) (v : E) (h : Heap E) : Option (Set E × Heap E) :=
  (mapassign s v h).map (fun h1 => (s, h1))

/-- Remove removes an element from the set; it returns the receiver. -/
def Set.Remove (s : Set E) (v : E) (h : Heap E) : Set E × Heap E :=
  (s, mapdelete s v h)

/-- Contains checks if the set contains the given element. -/
def Set.Contains (s : Set E) (v : E) (h : Heap E) : Bool :=
  mapaccess s v h

/-- Items returns a slice of the items in the set: a new slice, filled by appending each
key that `range` visits. -/
def Set.Items (ord : RangeOrder E) (s : Set E) (h : Heap E) : List E :=
  (maprange ord s h).foldl (fun result v => result ++ [v]) []

/-- The loop of `Intersection`: `if s2.Contains(v) { result.Add(v) }` for each item. -/
def Set.Intersection.loop (s2 result : Set E) : List E → Heap E → Option (Heap E)
  | [], h => some h
  | v :: vs, h =>
    if s2.Contains v h then
      (result.Add v h).bind (fun r => Set.Intersection.loop s2 result vs r.2)
    else Set.Intersection.loop s2 result vs h

/-- Intersection returns a new set with the intersection of the set and the given set. -/
def Set.Intersection (ord : RangeOrder E) (s s2 : Set E) (h : Heap E) :
    Option (Set E × Heap E) :=
  (New [] h).bind (fun r =>
    (Set.Intersection.loop s2 r.1 (s.Items ord r.2) r.2).map (fun h2 => (r.1, h2)))

/-- The loop of `Diff`: `if !s2.Contains(v) { result.Add(v) }` for each item. -/
def Set.Diff.loop (s2 result : Set E) : List E → Heap E → Option (Heap E)
  | [], h => some h
  | v :: vs, h =>
    if !s2.Contains v h then
      (result.Add v h).bind (fun r => Set.Diff.loop s2 result vs r.2)
    else Set.Diff.loop s2 result vs h

/-- Diff returns a new set with the difference of the set and the given set. -/
def Set.Diff (ord : RangeOrder E) (s s2 : Set E) (h : Heap E) : Option (Set E × Heap E) :=
  (New [] h).bind (fun r =>
    (Set.Diff.loop s2 r.1 (s.Items ord r.2) r.2).map (fun h2 => (r.1, h2)))

/-- The loop of `Intersects`: return true at the first item that `s2` contains. -/
def Set.Intersects.loop (s2 : Set E) (h : Heap E) : List E → Bool
  | [] => false
  | v :: vs => if s2.Contains v h then true else Set.Intersects.loop s2 h vs

/-- Intersects checks if the set intersects with the given set. -/
def Set.Intersects (ord : RangeOrder E) (s s2 : Set E) (h : Heap E) : Bool :=
  Set.Intersects.loop s2 h (s.Items ord h)

/-- The loop of `Clone`: `result.Add(v)` for each item. -/
def Set.Clone.loop (result : Set E) : List E → Heap E → Option (Heap E)
  | [], h => some h
  | v :: vs, h => (result.Add v h).bind (fun r => Set.Clone.loop result vs r.2)

/-- Clone returns a new set with the same elements as the set. -/
def Set.Clone (ord : RangeOrder E) (s : Set E) (h : Heap E) : Option (Set E × Heap E) :=
  (New [] h).bind (fun r =>
    (Set.Clone.loop r.1 (s.Items ord r.2) r.2).map (fun h2 => (r.1, h2)))

/-- Count returns the number of elements in the set. -/
def Set.Count (s : Set E) (h : Heap E) : Nat :=
  maplen s h

/-- Flush removes all elements from the set. -/
def Set.Flush (s : Set E) (h : Heap E) : Heap E :=
  mapclear s h

/-! ## trackable.go -/

/-- Trackable is a set that tracks changes: the current members and the elements added and
removed during its lifetime.  The struct holds three map values. -/
structure Trackable (E : Type) where
  set : Set E
  toBeAdded : Set E
  toBeRemoved : Set E
deriving DecidableEq

/-- NewTrackable creates a new trackable set with the given values. -/
def NewTrackable (values : List E) (h : Heap E) : Option (Trackable E × Heap E) :=
  (New values h).bind (fun r1 =>
    (New [] r1.2).bind (fun r2 =>
      (New [] r2.2).map (fun r3 =>
        ({ set := r1.1, toBeAdded := r2.1, toBeRemoved := r3.1 }, r3.2))))

/-- Add adds an element to the set and marks it as to-be-added. -/
def Trackable.Add (s : Trackable E) (v : E) (h : Heap E) : Option (Trackable E × Heap E) :=
  (s.set.Add v h).bind (fun r1 =>
    (s.toBeAdded.Add v r1.2).map (fun r2 => (s, r2.2)))

/-- Remove removes an element from the set and marks it as to-be-removed. -/
def Trackable.Remove (s : Trackable E) (v : E) (h : Heap E) :
    Option (Trackable E × Heap E) :=
  if !s.set.Contains v h then some (s, h)
  else
    let r1 := s.set.Remove v h
    (s.toBeRemoved.Add v r1.2).map (fun r2 => (s, r2.2))

/-- Contains checks if the set contains the given element. -/
def Trackable.Contains (s : Trackable E) (v : E) (h : Heap E) : Bool :=
  s.set.Contains v h

/-- Items returns a slice of the items in the set. -/
def Trackable.Items (ord : RangeOrder E) (s : Trackable E) (h : Heap E) : List E :=
  s.set.Items ord h

/-- Intersection returns a new set with the intersection of the set and the given set.
The first order is that of the `range` inside `Set.Intersection`, the second that of
`items.Items()`. -/
def Trackable.Intersection (ord ord2 : RangeOrder E) (s s2 : Trackable E) (h : Heap E) :
    Option (Trackable E × Heap E) :=
  (s.set.Intersection ord s2.set h).bind (fun items =>
    NewTrackable (items.1.Items ord2 items.2) items.2)

/-- The loop of `Trackable.Intersects`: return true at the first item `s2` contains. -/
def Trackable.Intersects.loop (s2 : Trackable E) (h : Heap E) : List E → Bool
  | [] => false
  | v :: vs => if s2.Contains v h then true else Trackable.Intersects.loop s2 h vs

/-- Intersects checks if the set intersects with the given set. -/
def Trackable.Intersects (ord : RangeOrder E) (s s2 : Trackable E) (h : Heap E) : Bool :=
  Trackable.Intersects.loop s2 h (s.Items ord h)

/-- Diff returns a new set with the difference of the set and the given set.  The first
order is that of the `range` inside `Set.Diff`, the second that of `diff.Items()`. -/
def Trackable.Diff (ord ord2 : RangeOrder E) (s s2 : Trackable E) (h : Heap E) :
    Option (Trackable E × Heap E) :=
  (s.set.Diff ord s2.set h).bind (fun diff =>
    NewTrackable (diff.1.Items ord2 diff.2) diff.2)

/-- ToBeAdded returns a set of elements that have been added to the set: the map value
itself, not a copy. -/
def Trackable.ToBeAdded (s : Trackable E) : Set E :=
  s.toBeAdded

/-- ToBeRemoved returns a set of elements that have been removed from the set: the map
value itself, not a copy. -/
def Trackable.ToBeRemoved (s : Trackable E) : Set E :=
  s.toBeRemoved

/-- Clone returns a new trackable set with the same elements as the set.  One range order
for each of the three `Set.Clone` calls. -/
def Trackable.Clone (ord ord2 ord3 : RangeOrder E) (s : Trackable E) (h : Heap E) :
    Option (Trackable E × Heap E) :=
  (s.set.Clone ord h).bind (fun r1 =>
    (s.toBeAdded.Clone ord2 r1.2).bind (fun r2 =>
      (s.toBeRemoved.Clone ord3 r2.2).map (fun r3 =>
        ({ set := r1.1, toBeAdded := r2.1, toBeRemoved := r3.1 }, r3.2))))

/-- Count returns the number of elements in the set. -/
def Trackable.Count (s : Trackable E) (h : Heap E) : Nat :=
  s.set.Count h

/-- HasChanges checks if the set has any changes. -/
def Trackable.HasChanges (s : Trackable E) (h : Heap E) : Bool :=
  decide (s.toBeAdded.Count h > 0) || decide (s.toBeRemoved.Count h > 0)

/-- Flush clears the to-be-added and to-be-removed sets. -/
def Trackable.Flush (s : Trackable E) (h : Heap E) : Heap E :=
  s.toBeRemoved.Flush (s.toBeAdded.Flush h)

/-! ## Well-formed values -/

/-- What every `Trackable` built by `NewTrackable`, `Clone`, `Intersection` or `Diff`
satisfies: its three maps are allocated and are three different map objects. -/
def Trackable.WF (s : Trackable E) (h : Heap E) : Prop :=
  s.set.Live h ∧ s.toBeAdded.Live h ∧ s.toBeRemoved.Live h ∧
    s.set ≠ s.toBeAdded ∧ s.set ≠ s.toBeRemoved ∧ s.toBeAdded ≠ s.toBeRemoved

instance (s : Trackable E) (h : Heap E) : Decidable (s.WF h) := by
  unfold Trackable.WF; infer_instance

/-- A call on a trackable set, for sequences of `Add` and `Remove` calls. -/
inductive Call (E : Type) where
  | add (v : E)
  | remove (v : E)
deriving DecidableEq

/-- Makes one call on the trackable set. -/
def Call.run (s : Trackable E) (h : Heap E) : Call E → Option (Trackable E × Heap E)
  | .add v => s.Add v h
  | .remove v => s.Remove v h

/-- Makes the calls one after the other, each on the value the previous one returned; the
heap is threaded through. -/
def runCalls : List (Call E) → Trackable E → Heap E → Option (Trackable E × Heap E)
  | [], s, h => some (s, h)
  | c :: cs, s, h => (c.run s h).bind (fun r => runCalls cs r.1 r.2)

/-- Whether the last call of the sequence whose argument is `x` is an `Add`; false when no
call has argument `x`. -/
def lastCallIsAdd (x : E) (cs : List (Call E)) : Bool :=
  cs.foldl (fun b c =>
    match c with
    | .add v => if v = x then true else b
    | .remove v => if v = x then false else b) false

/-- A mutating call on a set, for sequences of `Add`, `Remove` and `Flush` calls. -/
inductive SetCall (E : Type) where
  | add (v : E)
  | remove (v : E)
  | flush
deriving DecidableEq

/-- Makes one call on the set and gives the heap it leaves; `none` when the call panics. -/
def SetCall.run (s : Set E) (h : Heap E) : SetCall E → Option (Heap E)
  | .add v => (s.Add v h).map (fun r => r.2)
  | .remove v => some (s.Remove v h).2
  | .flush => some (s.Flush h)

/-- Makes the calls on the set one after the other; the heap is threaded through. -/
def runSetCalls (s : Set E) : List (SetCall E) → Heap E → Option (Heap E)
  | [], h => some h
  | c :: cs, h => (c.run s h).bind (runSetCalls s cs)

/-! ## Frames and observations used to state the theorems -/

/-- The heap `h1` is `h` with at most the map of `s` changed, and nothing allocated. -/
def Heap.Only (s : Set E) (h h1 : Heap E) : Prop :=
  h1.length = h.length ∧ ∀ t : Set E, t ≠ s → t.keys h1 = t.keys h

/-- The heap `h1` is `h` with new maps allocated: every map value of `h` keeps its keys. -/
def Heap.Grows (h h1 : Heap E) : Prop :=
  h.length ≤ h1.length ∧ ∀ t : Set E, t.Valid h → t.keys h1 = t.keys h

/-- The two trackable sets hold the same contents, each in its own heap: the same members,
the same to-be-added elements and the same to-be-removed elements. -/
def Trackable.SameContents (a : Trackable E) (ha : Heap E) (b : Trackable E) (hb : Heap E) :
    Prop :=
  (∀ x, a.Contains x ha = b.Contains x hb) ∧
    (∀ x, a.ToBeAdded.Contains x ha = b.ToBeAdded.Contains x hb) ∧
    (∀ x, a.ToBeRemoved.Contains x ha = b.ToBeRemoved.Contains x hb)

/-- The three maps of the trackable set hold the same keys in `h1` as in `h`. -/
def Trackable.Unchanged (s : Trackable E) (h h1 : Heap E) : Prop :=
  s.set.keys h1 = s.set.keys h ∧ s.toBeAdded.keys h1 = s.toBeAdded.keys h ∧
    s.toBeRemoved.keys h1 = s.toBeRemoved.keys h

/-- What a trackable set says about one element `x`: whether it is a member, whether it is
marked to-be-added, whether it is marked to-be-removed. -/
def Trackable.flags (s : Trackable E) (x : E) (h : Heap E) : Bool × Bool × Bool :=
  (s.Contains x h, s.ToBeAdded.Contains x h, s.ToBeRemoved.Contains x h)

/-- What one call does to the three flags of the element `x`. -/
def Call.flags (x : E) (f : Bool × Bool × Bool) : Call E → Bool × Bool × Bool
  | .add v => if v = x then (true, true, f.2.2) else f
  | .remove v => if v = x ∧ f.1 = true then (false, f.2.1, true) else f

/-! ## Concrete states -/

/-- The trackable set that `NewTrackable(1, 2, 3)` returns on an empty heap. -/
def exampleTrackable : Trackable Nat := ⟨⟨some 0⟩, ⟨some 1⟩, ⟨some 2⟩⟩

/-- The heap that `NewTrackable(1, 2, 3)` leaves when run on an empty heap. -/
def exampleHeap : Heap Nat := [⟨[3, 2, 1], by decide⟩, GoMap.empty, GoMap.empty]

/-- The heap after `Add(4)` and `Remove(2)` on `exampleTrackable` in `exampleHeap`. -/
def exampleHeapChanged : Heap Nat :=
  [⟨[4, 3, 1], by decide⟩, ⟨[4], by decide⟩, ⟨[2], by decide⟩]

/-- The heap that `NewTrackable(1, 2, 3, 4)` and then `NewTrackable(3, 4, 5)` leave when run
on an empty heap. -/
def examplePairHeap : Heap Nat :=
  [⟨[4, 3, 2, 1], by decide⟩, GoMap.empty, GoMap.empty,
    ⟨[5, 4, 3], by decide⟩, GoMap.empty, GoMap.empty]

/-- The second trackable set of `examplePairHeap`, the one of `NewTrackable(3, 4, 5)`; the
first is `exampleTrackable`. -/
def exampleTrackable2 : Trackable Nat := ⟨⟨some 3⟩, ⟨some 4⟩, ⟨some 5⟩⟩

/-- The first set of `exampleSetHeap`, the one of `New(1, 2, 3, 4)`. -/
def exampleSet : Set Nat := ⟨some 0⟩

/-- The second set of `exampleSetHeap`, the one of `New(3, 4, 5)`. -/
def exampleSet2 : Set Nat := ⟨some 1⟩

/-- The heap that `New(1, 2, 3, 4)` and then `New(3, 4, 5)` leave when run on an empty
heap. -/
def exampleSetHeap : Heap Nat := [⟨[4, 3, 2, 1], by decide⟩, ⟨[5, 4, 3], by decide⟩]

/-! ## The built-in map operations, seen through `Set.keys` -/

theorem Set.ne_iff_addr {s t : Set E} : t ≠ s ↔ t.addr ≠ s.addr := by
  cases s; cases t; simp

theorem Set.Live.addr {s : Set E} {h : Heap E} (hl : s.Live h) :
    ∃ a, s.addr = some a ∧ a < h.length := by
  unfold Set.Live at hl
  cases hs : s.addr with
  | none => simp [hs] at hl
  | some a => exact ⟨a, rfl, by simpa [hs] using hl⟩

theorem Set.Live.live_of_length_le {s : Set E} {h h1 : Heap E} (hl : s.Live h)
    (hlen : h.length ≤ h1.length) : s.Live h1 := by
  obtain ⟨a, ha, hlt⟩ := hl.addr
  unfold Set.Live
  simp only [ha]
  omega

theorem Set.keys_set_self {s : Set E} {h : Heap E} {a : Nat} (ha : s.addr = some a)
    (hlt : a < h.length) (m : GoMap E) : s.keys (h.set a m) = m.keys := by
  simp [Set.keys, ha, List.getElem?_set_self hlt]

theorem Set.keys_set_ne {s : Set E} {a : Nat} (ha : s.addr = some a) (h : Heap E)
    (m : GoMap E) (t : Set E) (hne : t ≠ s) : t.keys (h.set a m) = t.keys h := by
  rw [Set.ne_iff_addr, ha] at hne
  unfold Set.keys
  cases hta : t.addr with
  | none => rfl
  | some b =>
    have hba : a ≠ b := fun e => hne (by rw [hta, e])
    simp [List.getElem?_set_ne hba]

theorem Heap.lt_of_getElem? {h : Heap E} {a : Nat} {m : GoMap E} (hm : h[a]? = some m) :
    a < h.length := by
  by_contra hge
  rw [List.getElem?_eq_none (by omega)] at hm
  cases hm

theorem mapassign_spec {s : Set E} {h : Heap E} (hl : s.Live h) (v : E) :
    ∃ h1, mapassign s v h = some h1 ∧ h1.length = h.length ∧
      s.keys h1 = List.insert v (s.keys h) ∧ ∀ t : Set E, t ≠ s → t.keys h1 = t.keys h := by
  obtain ⟨a, ha, hlt⟩ := hl.addr
  have hm : h[a]? = some (h.get ⟨a, hlt⟩) := List.getElem?_eq_getElem hlt
  refine ⟨h.set a ((h.get ⟨a, hlt⟩).insert v), ?_, by simp, ?_, ?_⟩
  · simp only [mapassign, ha, hm]
  · rw [Set.keys_set_self ha hlt]
    simp only [Set.keys, ha, hm, GoMap.insert]
  · exact Set.keys_set_ne ha h _

theorem mapdelete_spec (s : Set E) (v : E) (h : Heap E) :
    (mapdelete s v h).length = h.length ∧
      s.keys (mapdelete s v h) = (s.keys h).erase v ∧
      ∀ t : Set E, t ≠ s → t.keys (mapdelete s v h) = t.keys h := by
  cases ha : s.addr with
  | none => simp [mapdelete, Set.keys, ha]
  | some a =>
    cases hm : h[a]? with
    | none => simp [mapdelete, Set.keys, ha, hm]
    | some m =>
      have hlt : a < h.length := Heap.lt_of_getElem? hm
      have hd : mapdelete s v h = h.set a (m.erase v) := by
        simp only [mapdelete, ha, hm]
      rw [hd]
      refine ⟨by simp, ?_, Set.keys_set_ne ha h _⟩
      rw [Set.keys_set_self ha hlt]
      simp only [Set.keys, ha, hm, GoMap.erase]

theorem mapclear_spec (s : Set E) (h : Heap E) :
    (mapclear s h).length = h.length ∧ s.keys (mapclear s h) = [] ∧
      ∀ t : Set E, t ≠ s → t.keys (mapclear s h) = t.keys h := by
  cases ha : s.addr with
  | none => simp [mapclear, Set.keys, ha]
  | some a =>
    cases hm : h[a]? with
    | none => simp [mapclear, Set.keys, ha, hm]
    | some m =>
      have hlt : a < h.length := Heap.lt_of_getElem? hm
      have hd : mapclear s h = h.set a GoMap.empty := by
        simp only [mapclear, ha, hm]
      rw [hd]
      refine ⟨by simp, ?_, Set.keys_set_ne ha h _⟩
      rw [Set.keys_set_self ha hlt]
      rfl

theorem makemap_spec (h : Heap E) :
    (makemap h).1.Live (makemap h).2 ∧ (makemap h).2.length = h.length + 1 ∧
      (makemap h).1.keys (makemap h).2 = [] ∧ ¬ (makemap h).1.Live h ∧
      ∀ t : Set E, t ≠ (makemap h).1 → t.keys (makemap h).2 = t.keys h := by
  refine ⟨by simp [makemap, Set.Live], by simp [makemap], ?_, by simp [makemap, Set.Live],
    ?_⟩
  · simp [makemap, Set.keys, GoMap.empty]
  · intro t hne
    rw [Set.ne_iff_addr] at hne
    unfold Set.keys
    cases hta : t.addr with
    | none => rfl
    | some b =>
      have hb : b ≠ h.length := fun e => hne (by rw [hta, e]; rfl)
      simp only [makemap]
      rcases Nat.lt_or_gt_of_ne hb with hlt | hgt
      · rw [List.getElem?_append_left hlt]
      · rw [List.getElem?_eq_none (by simp; omega), List.getElem?_eq_none (by omega)]

/-! ## Frames: what a call leaves alone -/

theorem Set.Live.valid {s : Set E} {h : Heap E} (hl : s.Live h) : s.Valid h := by
  obtain ⟨a, ha, hlt⟩ := hl.addr
  unfold Set.Valid
  simpa only [ha] using hlt

theorem Set.Valid.valid_of_length_le {s : Set E} {h h1 : Heap E} (hv : s.Valid h)
    (hlen : h.length ≤ h1.length) : s.Valid h1 := by
  unfold Set.Valid at hv ⊢
  cases ha : s.addr with
  | none => trivial
  | some a =>
    simp only [ha] at hv ⊢
    omega

theorem Set.Valid.ne_of_fresh {s r : Set E} {h h1 : Heap E} (hv : s.Valid h)
    (hr : r.Live h1) (hf : ¬ r.Live h) : s ≠ r := by
  rintro rfl
  obtain ⟨a, ha, _⟩ := hr.addr
  apply hf
  unfold Set.Valid at hv
  unfold Set.Live
  simpa only [ha] using hv

theorem Heap.Only.only_refl (s : Set E) (h : Heap E) : Heap.Only s h h :=
  ⟨rfl, fun _ _ => rfl⟩

theorem Heap.Only.only_trans {s : Set E} {h h1 h2 : Heap E} (h01 : Heap.Only s h h1)
    (h12 : Heap.Only s h1 h2) : Heap.Only s h h2 :=
  ⟨h12.1.trans h01.1, fun t ht => (h12.2 t ht).trans (h01.2 t ht)⟩

theorem Heap.Only.only_live {s t : Set E} {h h1 : Heap E} (ho : Heap.Only s h h1)
    (hl : t.Live h) : t.Live h1 :=
  hl.live_of_length_le (le_of_eq ho.1.symm)

theorem Heap.Grows.grows_refl (h : Heap E) : Heap.Grows h h :=
  ⟨le_refl _, fun _ _ => rfl⟩

theorem Heap.Grows.grows_trans {h h1 h2 : Heap E} (h01 : Heap.Grows h h1)
    (h12 : Heap.Grows h1 h2) : Heap.Grows h h2 :=
  ⟨le_trans h01.1 h12.1, fun t ht =>
    (h12.2 t (ht.valid_of_length_le h01.1)).trans (h01.2 t ht)⟩

theorem Heap.Grows.grows_live {t : Set E} {h h1 : Heap E} (hg : Heap.Grows h h1)
    (hl : t.Live h) : t.Live h1 :=
  hl.live_of_length_le hg.1

/-- Changing only a map that did not exist in `h0` keeps every map value of `h0`. -/
theorem Heap.Grows.grows_only {r : Set E} {h0 h h1 : Heap E} (hg : Heap.Grows h0 h)
    (hl : r.Live h) (hf : ¬ r.Live h0) (ho : Heap.Only r h h1) : Heap.Grows h0 h1 :=
  ⟨le_trans hg.1 (le_of_eq ho.1.symm), fun t ht =>
    (ho.2 t (ht.ne_of_fresh hl hf)).trans (hg.2 t ht)⟩

/-! ## set.go, call by call -/

@[simp] theorem Set.Contains_iff (s : Set E) (v : E) (h : Heap E) :
    s.Contains v h = true ↔ v ∈ s.keys h := by
  simp [Set.Contains, mapaccess]

theorem Set.Contains_eq_false (s : Set E) (v : E) (h : Heap E) :
    s.Contains v h = false ↔ v ∉ s.keys h := by
  simp [Set.Contains, mapaccess]

theorem Set.Count_eq (s : Set E) (h : Heap E) : s.Count h = (s.keys h).length := rfl

theorem foldl_append_singleton (acc l : List E) :
    l.foldl (fun result v => result ++ [v]) acc = acc ++ l := by
  induction l generalizing acc with
  | nil => simp
  | cons a l ih => simp [ih]

theorem Set.Items_eq (ord : RangeOrder E) (s : Set E) (h : Heap E) :
    s.Items ord h = ord.order (s.keys h) := by
  simp [Set.Items, maprange, foldl_append_singleton]

theorem Set.mem_Items (ord : RangeOrder E) (s : Set E) (h : Heap E) (x : E) :
    x ∈ s.Items ord h ↔ x ∈ s.keys h := by
  rw [Set.Items_eq]
  exact (ord.perm _).mem_iff

theorem Set.nodup_keys (s : Set E) (h : Heap E) : (s.keys h).Nodup := by
  unfold Set.keys
  split
  · exact List.nodup_nil
  · split
    · exact List.nodup_nil
    · exact GoMap.nodup _

theorem Set.Add_keys {s : Set E} {h : Heap E} (hl : s.Live h) (v : E) :
    ∃ h1, s.Add v h = some (s, h1) ∧ Heap.Only s h h1 ∧
      s.keys h1 = List.insert v (s.keys h) := by
  obtain ⟨h1, he, hlen, hk, hfr⟩ := mapassign_spec hl v
  exact ⟨h1, by simp [Set.Add, he], ⟨hlen, hfr⟩, hk⟩

theorem Set.Remove_keys (s : Set E) (v : E) (h : Heap E) :
    (s.Remove v h).1 = s ∧ Heap.Only s h (s.Remove v h).2 ∧
      s.keys (s.Remove v h).2 = (s.keys h).erase v := by
  obtain ⟨hlen, hk, hfr⟩ := mapdelete_spec s v h
  exact ⟨rfl, ⟨hlen, hfr⟩, hk⟩

theorem Set.Flush_keys (s : Set E) (h : Heap E) :
    Heap.Only s h (s.Flush h) ∧ s.keys (s.Flush h) = [] := by
  obtain ⟨hlen, hk, hfr⟩ := mapclear_spec s h
  exact ⟨⟨hlen, hfr⟩, hk⟩

theorem New_loop_spec {s : Set E} (vs : List E) {h : Heap E} (hl : s.Live h) :
    ∃ h1, New.loop s vs h = some h1 ∧ Heap.Only s h h1 ∧
      ∀ x, x ∈ s.keys h1 ↔ x ∈ s.keys h ∨ x ∈ vs := by
  induction vs generalizing h with
  | nil => exact ⟨h, rfl, Heap.Only.only_refl s h, by simp⟩
  | cons v vs ih =>
    obtain ⟨h1, he, hlen, hk, hfr⟩ := mapassign_spec hl v
    obtain ⟨h2, he2, ho2, hk2⟩ := ih (hl.live_of_length_le (le_of_eq hlen.symm))
    refine ⟨h2, by simp [New.loop, he, he2], Heap.Only.only_trans ⟨hlen, hfr⟩ ho2, ?_⟩
    intro x
    rw [hk2, hk, List.mem_insert_iff, List.mem_cons]
    tauto

theorem New_spec (vs : List E) (h : Heap E) :
    ∃ s h1, New vs h = some (s, h1) ∧ s.Live h1 ∧ ¬ s.Live h ∧ Heap.Grows h h1 ∧
      ∀ x, x ∈ s.keys h1 ↔ x ∈ vs := by
  obtain ⟨hl, hlen, hk, hf, hfr⟩ := makemap_spec h
  obtain ⟨h1, he, ho, hk1⟩ := New_loop_spec vs hl
  refine ⟨(makemap h).1, h1, ?_, ho.only_live hl, hf, ?_, ?_⟩
  · simp [New, he]
  · exact Heap.Grows.grows_only ⟨by omega, fun t ht => hfr t (ht.ne_of_fresh hl hf)⟩ hl hf ho
  · intro x
    rw [hk1, hk]
    simp

theorem New_nil_spec (h : Heap E) :
    ∃ s h1, New ([] : List E) h = some (s, h1) ∧ s.Live h1 ∧ ¬ s.Live h ∧
      Heap.Grows h h1 ∧ s.keys h1 = [] := by
  obtain ⟨s, h1, he, hl, hf, hg, hk⟩ := New_spec ([] : List E) h
  exact ⟨s, h1, he, hl, hf, hg, List.eq_nil_iff_forall_not_mem.mpr (fun x hx => by
    simpa using (hk x).mp hx)⟩

theorem Set.Intersection_loop_spec {s2 result : Set E} (vs : List E) {h : Heap E}
    (hl : result.Live h) (hne : s2 ≠ result) :
    ∃ h1, Set.Intersection.loop s2 result vs h = some h1 ∧ Heap.Only result h h1 ∧
      ∀ x, x ∈ result.keys h1 ↔ x ∈ result.keys h ∨ (x ∈ vs ∧ x ∈ s2.keys h) := by
  induction vs generalizing h with
  | nil => exact ⟨h, rfl, Heap.Only.only_refl _ h, by simp⟩
  | cons v vs ih =>
    by_cases hc : s2.Contains v h = true
    · obtain ⟨h1, e1, o1, k1⟩ := Set.Add_keys hl v
      obtain ⟨h2, e2, o2, k2⟩ := ih (o1.only_live hl)
      refine ⟨h2, by simp [Set.Intersection.loop, hc, e1, e2], o1.only_trans o2, ?_⟩
      intro x
      have hv : v ∈ s2.keys h := (Set.Contains_iff _ _ _).mp hc
      rw [k2, k1, o1.2 _ hne, List.mem_insert_iff, List.mem_cons]
      constructor
      · rintro ((rfl | hx) | ⟨hx, hx2⟩)
        · exact Or.inr ⟨Or.inl rfl, hv⟩
        · exact Or.inl hx
        · exact Or.inr ⟨Or.inr hx, hx2⟩
      · rintro (hx | ⟨rfl | hx, hx2⟩)
        · exact Or.inl (Or.inr hx)
        · exact Or.inl (Or.inl rfl)
        · exact Or.inr ⟨hx, hx2⟩
    · obtain ⟨h2, e2, o2, k2⟩ := ih hl
      refine ⟨h2, by simp [Set.Intersection.loop, hc, e2], o2, ?_⟩
      intro x
      have hv : v ∉ s2.keys h := fun hm => hc ((Set.Contains_iff _ _ _).mpr hm)
      rw [k2, List.mem_cons]
      constructor
      · rintro (hx | ⟨hx, hx2⟩)
        · exact Or.inl hx
        · exact Or.inr ⟨Or.inr hx, hx2⟩
      · rintro (hx | ⟨rfl | hx, hx2⟩)
        · exact Or.inl hx
        · exact absurd hx2 hv
        · exact Or.inr ⟨hx, hx2⟩

theorem Set.Intersection_keys (ord : RangeOrder E) {s s2 : Set E} {h : Heap E}
    (hs : s.Valid h) (hs2 : s2.Valid h) :
    ∃ r h1, s.Intersection ord s2 h = some (r, h1) ∧ r.Live h1 ∧ ¬ r.Live h ∧
      Heap.Grows h h1 ∧ ∀ x, x ∈ r.keys h1 ↔ x ∈ s.keys h ∧ x ∈ s2.keys h := by
  obtain ⟨r, h0, e0, l0, f0, g0, k0⟩ := New_nil_spec h
  obtain ⟨h1, e1, o1, k1⟩ :=
    Set.Intersection_loop_spec (s.Items ord h0) l0 (hs2.ne_of_fresh l0 f0)
  refine ⟨r, h1, by simp [Set.Intersection, e0, e1], o1.only_live l0, f0,
    Heap.Grows.grows_only g0 l0 f0 o1, ?_⟩
  intro x
  rw [k1, k0, Set.mem_Items, g0.2 s hs, g0.2 s2 hs2]
  simp

theorem Set.Diff_loop_spec {s2 result : Set E} (vs : List E) {h : Heap E}
    (hl : result.Live h) (hne : s2 ≠ result) :
    ∃ h1, Set.Diff.loop s2 result vs h = some h1 ∧ Heap.Only result h h1 ∧
      ∀ x, x ∈ result.keys h1 ↔ x ∈ result.keys h ∨ (x ∈ vs ∧ x ∉ s2.keys h) := by
  induction vs generalizing h with
  | nil => exact ⟨h, rfl, Heap.Only.only_refl _ h, by simp⟩
  | cons v vs ih =>
    by_cases hc : s2.Contains v h = true
    · obtain ⟨h2, e2, o2, k2⟩ := ih hl
      refine ⟨h2, by simp [Set.Diff.loop, hc, e2], o2, ?_⟩
      intro x
      have hv : v ∈ s2.keys h := (Set.Contains_iff _ _ _).mp hc
      rw [k2, List.mem_cons]
      constructor
      · rintro (hx | ⟨hx, hx2⟩)
        · exact Or.inl hx
        · exact Or.inr ⟨Or.inr hx, hx2⟩
      · rintro (hx | ⟨rfl | hx, hx2⟩)
        · exact Or.inl hx
        · exact absurd hv hx2
        · exact Or.inr ⟨hx, hx2⟩
    · obtain ⟨h1, e1, o1, k1⟩ := Set.Add_keys hl v
      obtain ⟨h2, e2, o2, k2⟩ := ih (o1.only_live hl)
      refine ⟨h2, by simp [Set.Diff.loop, hc, e1, e2], o1.only_trans o2, ?_⟩
      intro x
      have hv : v ∉ s2.keys h := fun hm => hc ((Set.Contains_iff _ _ _).mpr hm)
      rw [k2, k1, o1.2 _ hne, List.mem_insert_iff, List.mem_cons]
      constructor
      · rintro ((rfl | hx) | ⟨hx, hx2⟩)
        · exact Or.inr ⟨Or.inl rfl, hv⟩
        · exact Or.inl hx
        · exact Or.inr ⟨Or.inr hx, hx2⟩
      · rintro (hx | ⟨rfl | hx, hx2⟩)
        · exact Or.inl (Or.inr hx)
        · exact Or.inl (Or.inl rfl)
        · exact Or.inr ⟨hx, hx2⟩

theorem Set.Diff_keys (ord : RangeOrder E) {s s2 : Set E} {h : Heap E}
    (hs : s.Valid h) (hs2 : s2.Valid h) :
    ∃ r h1, s.Diff ord s2 h = some (r, h1) ∧ r.Live h1 ∧ ¬ r.Live h ∧
      Heap.Grows h h1 ∧ ∀ x, x ∈ r.keys h1 ↔ x ∈ s.keys h ∧ x ∉ s2.keys h := by
  obtain ⟨r, h0, e0, l0, f0, g0, k0⟩ := New_nil_spec h
  obtain ⟨h1, e1, o1, k1⟩ :=
    Set.Diff_loop_spec (s.Items ord h0) l0 (hs2.ne_of_fresh l0 f0)
  refine ⟨r, h1, by simp [Set.Diff, e0, e1], o1.only_live l0, f0,
    Heap.Grows.grows_only g0 l0 f0 o1, ?_⟩
  intro x
  rw [k1, k0, Set.mem_Items, g0.2 s hs, g0.2 s2 hs2]
  simp

theorem Set.Clone_loop_spec {result : Set E} (vs : List E) {h : Heap E}
    (hl : result.Live h) :
    ∃ h1, Set.Clone.loop result vs h = some h1 ∧ Heap.Only result h h1 ∧
      ∀ x, x ∈ result.keys h1 ↔ x ∈ result.keys h ∨ x ∈ vs := by
  induction vs generalizing h with
  | nil => exact ⟨h, rfl, Heap.Only.only_refl _ h, by simp⟩
  | cons v vs ih =>
    obtain ⟨h1, e1, o1, k1⟩ := Set.Add_keys hl v
    obtain ⟨h2, e2, o2, k2⟩ := ih (o1.only_live hl)
    refine ⟨h2, by simp [Set.Clone.loop, e1, e2], o1.only_trans o2, ?_⟩
    intro x
    rw [k2, k1, List.mem_insert_iff, List.mem_cons]
    tauto

theorem Set.Clone_keys (ord : RangeOrder E) {s : Set E} {h : Heap E} (hs : s.Valid h) :
    ∃ r h1, s.Clone ord h = some (r, h1) ∧ r.Live h1 ∧ ¬ r.Live h ∧
      Heap.Grows h h1 ∧ ∀ x, x ∈ r.keys h1 ↔ x ∈ s.keys h := by
  obtain ⟨r, h0, e0, l0, f0, g0, k0⟩ := New_nil_spec h
  obtain ⟨h1, e1, o1, k1⟩ := Set.Clone_loop_spec (s.Items ord h0) l0
  refine ⟨r, h1, by simp [Set.Clone, e0, e1], o1.only_live l0, f0,
    Heap.Grows.grows_only g0 l0 f0 o1, ?_⟩
  intro x
  rw [k1, k0, Set.mem_Items, g0.2 s hs]
  simp

/-- Two map values with the same members have the same count. -/
theorem Set.Count_eq_of_mem_iff {s t : Set E} {h h1 : Heap E}
    (hk : ∀ x, x ∈ s.keys h ↔ x ∈ t.keys h1) : s.Count h = t.Count h1 :=
  ((List.perm_ext_iff_of_nodup (s.nodup_keys h) (t.nodup_keys h1)).mpr hk).length_eq

/-! ## trackable.go, call by call -/

theorem Trackable.WF.wf_of_length_eq {ts : Trackable E} {h h1 : Heap E} (hwf : ts.WF h)
    (hlen : h1.length = h.length) : ts.WF h1 :=
  ⟨hwf.1.live_of_length_le (le_of_eq hlen.symm), hwf.2.1.live_of_length_le (le_of_eq hlen.symm),
    hwf.2.2.1.live_of_length_le (le_of_eq hlen.symm), hwf.2.2.2⟩

theorem NewTrackable_spec (vs : List E) (h : Heap E) :
    ∃ ts h1, NewTrackable vs h = some (ts, h1) ∧ ts.WF h1 ∧ Heap.Grows h h1 ∧
      (¬ ts.set.Live h ∧ ¬ ts.toBeAdded.Live h ∧ ¬ ts.toBeRemoved.Live h) ∧
      (∀ x, x ∈ ts.set.keys h1 ↔ x ∈ vs) ∧
      ts.toBeAdded.keys h1 = [] ∧ ts.toBeRemoved.keys h1 = [] := by
  obtain ⟨s1, h1, e1, l1, f1, g1, k1⟩ := New_spec vs h
  obtain ⟨s2, h2, e2, l2, f2, g2, k2⟩ := New_nil_spec h1
  obtain ⟨s3, h3, e3, l3, f3, g3, k3⟩ := New_nil_spec h2
  have l1v : s1.Valid h1 := l1.valid
  have l2v : s2.Valid h2 := l2.valid
  refine ⟨⟨s1, s2, s3⟩, h3, by simp [NewTrackable, e1, e2, e3], ?_, (g1.grows_trans g2).grows_trans g3,
    ⟨f1, fun hl => f2 (g1.grows_live hl), fun hl => f3 ((g1.grows_trans g2).grows_live hl)⟩, ?_, ?_, k3⟩
  · exact ⟨(g2.grows_trans g3).grows_live l1, g3.grows_live l2, l3, l1v.ne_of_fresh l2 f2,
      (l1v.valid_of_length_le g2.1).ne_of_fresh l3 f3, l2v.ne_of_fresh l3 f3⟩
  · intro x
    rw [(g2.grows_trans g3).2 s1 l1v]
    exact k1 x
  · rw [g3.2 s2 l2v]
    exact k2

theorem Trackable.Add_spec {ts : Trackable E} {h : Heap E} (hwf : ts.WF h) (v : E) :
    ∃ h1, ts.Add v h = some (ts, h1) ∧ h1.length = h.length ∧
      ts.set.keys h1 = List.insert v (ts.set.keys h) ∧
      ts.toBeAdded.keys h1 = List.insert v (ts.toBeAdded.keys h) ∧
      ts.toBeRemoved.keys h1 = ts.toBeRemoved.keys h ∧
      ∀ t : Set E, t ≠ ts.set → t ≠ ts.toBeAdded → t.keys h1 = t.keys h := by
  obtain ⟨ls, la, _, nsa, nsr, nar⟩ := hwf
  obtain ⟨h1, e1, o1, k1⟩ := Set.Add_keys ls v
  obtain ⟨h2, e2, o2, k2⟩ := Set.Add_keys (o1.only_live la) v
  refine ⟨h2, by simp [Trackable.Add, e1, e2], o2.1.trans o1.1, ?_, ?_, ?_, ?_⟩
  · rw [o2.2 _ nsa, k1]
  · rw [k2, o1.2 _ (Ne.symm nsa)]
  · rw [o2.2 _ (Ne.symm nar), o1.2 _ (Ne.symm nsr)]
  · intro t hs ha
    rw [o2.2 t ha, o1.2 t hs]

theorem Trackable.Remove_absent (ts : Trackable E) {v : E} {h : Heap E}
    (hv : v ∉ ts.set.keys h) : ts.Remove v h = some (ts, h) := by
  have hc : ts.set.Contains v h = false := (Set.Contains_eq_false _ _ _).mpr hv
  simp [Trackable.Remove, hc]

theorem Trackable.Remove_present {ts : Trackable E} {h : Heap E} (hwf : ts.WF h) {v : E}
    (hv : v ∈ ts.set.keys h) :
    ∃ h1, ts.Remove v h = some (ts, h1) ∧ h1.length = h.length ∧
      ts.set.keys h1 = (ts.set.keys h).erase v ∧
      ts.toBeAdded.keys h1 = ts.toBeAdded.keys h ∧
      ts.toBeRemoved.keys h1 = List.insert v (ts.toBeRemoved.keys h) ∧
      ∀ t : Set E, t ≠ ts.set → t ≠ ts.toBeRemoved → t.keys h1 = t.keys h := by
  obtain ⟨_, _, lr, nsa, nsr, nar⟩ := hwf
  have hc : ts.set.Contains v h = true := (Set.Contains_iff _ _ _).mpr hv
  obtain ⟨_, o1, k1⟩ := Set.Remove_keys ts.set v h
  obtain ⟨h2, e2, o2, k2⟩ := Set.Add_keys (o1.only_live lr) v
  refine ⟨h2, by simp [Trackable.Remove, hc, e2], o2.1.trans o1.1, ?_, ?_, ?_, ?_⟩
  · rw [o2.2 _ nsr, k1]
  · rw [o2.2 _ nar, o1.2 _ (Ne.symm nsa)]
  · rw [k2, o1.2 _ (Ne.symm nsr)]
  · intro t hs hr
    rw [o2.2 t hr, o1.2 t hs]

theorem Trackable.Flush_spec (ts : Trackable E) (h : Heap E) :
    (ts.Flush h).length = h.length ∧ ts.toBeAdded.keys (ts.Flush h) = [] ∧
      ts.toBeRemoved.keys (ts.Flush h) = [] ∧
      ∀ t : Set E, t ≠ ts.toBeAdded → t ≠ ts.toBeRemoved → t.keys (ts.Flush h) = t.keys h := by
  obtain ⟨o1, k1⟩ := Set.Flush_keys ts.toBeAdded h
  obtain ⟨o2, k2⟩ := Set.Flush_keys ts.toBeRemoved (ts.toBeAdded.Flush h)
  refine ⟨o2.1.trans o1.1, ?_, k2, ?_⟩
  · by_cases he : ts.toBeAdded = ts.toBeRemoved
    · rw [he]
      exact k2
    · exact (o2.2 _ he).trans k1
  · intro t ha hr
    exact (o2.2 t hr).trans (o1.2 t ha)

theorem Trackable.HasChanges_iff (ts : Trackable E) (h : Heap E) :
    ts.HasChanges h = true ↔ ts.toBeAdded.keys h ≠ [] ∨ ts.toBeRemoved.keys h ≠ [] := by
  simp [Trackable.HasChanges, Set.Count, maplen, List.length_pos]

theorem Call.run_spec {ts : Trackable E} {h : Heap E} (hwf : ts.WF h) (c : Call E) :
    ∃ h1, c.run ts h = some (ts, h1) ∧ h1.length = h.length ∧
      (∀ x, ts.flags x h1 = c.flags x (ts.flags x h)) ∧
      ∀ t : Set E, t ≠ ts.set → t ≠ ts.toBeAdded → t ≠ ts.toBeRemoved →
        t.keys h1 = t.keys h := by
  cases c with
  | add v =>
    obtain ⟨h1, e, hlen, ks, ka, kr, fr⟩ := Trackable.Add_spec hwf v
    refine ⟨h1, e, hlen, ?_, fun t hs ha _ => fr t hs ha⟩
    intro x
    simp only [Trackable.flags, Call.flags, Trackable.Contains, Trackable.ToBeAdded,
      Trackable.ToBeRemoved, Set.Contains, mapaccess, ks, ka, kr, List.mem_insert_iff]
    by_cases hx : v = x
    · simp [hx]
    · have hx2 : ¬ x = v := fun e => hx e.symm
      simp [hx, hx2]
  | remove v =>
    by_cases hv : v ∈ ts.set.keys h
    · obtain ⟨h1, e, hlen, ks, ka, kr, fr⟩ := Trackable.Remove_present hwf hv
      refine ⟨h1, e, hlen, ?_, fun t hs _ hr => fr t hs hr⟩
      intro x
      simp only [Trackable.flags, Call.flags, Trackable.Contains, Trackable.ToBeAdded,
        Trackable.ToBeRemoved, Set.Contains, mapaccess, ks, ka, kr, List.mem_insert_iff,
        (ts.set.nodup_keys h).mem_erase_iff]
      by_cases hx : v = x
      · subst hx
        simp [hv]
      · have hx2 : ¬ x = v := fun e => hx e.symm
        simp [hx, hx2]
    · refine ⟨h, Trackable.Remove_absent ts hv, rfl, ?_, fun _ _ _ _ => rfl⟩
      intro x
      simp only [Trackable.flags, Call.flags, Trackable.Contains, Set.Contains, mapaccess]
      by_cases hx : v = x
      · subst hx
        simp [hv]
      · simp [hx]

theorem runCalls_spec {ts : Trackable E} (cs : List (Call E)) {h : Heap E} (hwf : ts.WF h) :
    ∃ h1, runCalls cs ts h = some (ts, h1) ∧ h1.length = h.length ∧
      (∀ x, ts.flags x h1 = cs.foldl (Call.flags x) (ts.flags x h)) ∧
      ∀ t : Set E, t ≠ ts.set → t ≠ ts.toBeAdded → t ≠ ts.toBeRemoved →
        t.keys h1 = t.keys h := by
  induction cs generalizing h with
  | nil => exact ⟨h, rfl, rfl, fun _ => rfl, fun _ _ _ _ => rfl⟩
  | cons c cs ih =>
    obtain ⟨h1, e1, l1, f1, r1⟩ := Call.run_spec hwf c
    obtain ⟨h2, e2, l2, f2, r2⟩ := ih (hwf.wf_of_length_eq l1)
    refine ⟨h2, by simp [runCalls, e1, e2], l2.trans l1, ?_, ?_⟩
    · intro x
      rw [f2, f1, List.foldl_cons]
    · intro t hs ha hr
      rw [r2 t hs ha hr, r1 t hs ha hr]

/-! ## Sequences of calls, element by element -/

theorem lastCallIsAdd_append (x : E) (cs : List (Call E)) (c : Call E) :
    lastCallIsAdd x (cs ++ [c]) =
      match c with
      | .add v => if v = x then true else lastCallIsAdd x cs
      | .remove v => if v = x then false else lastCallIsAdd x cs := by
  simp only [lastCallIsAdd, List.foldl_append, List.foldl_cons, List.foldl_nil]

/-- From flags `(i, false, false)`, after any calls: the element is a member exactly when
it was one at the start or is marked added, and it is not marked removed or its last call
was an `Add`. -/
theorem flags_replay (x : E) (i : Bool) (cs : List (Call E)) :
    (cs.foldl (Call.flags x) (i, false, false)).1 = true ↔
      (i = true ∨ (cs.foldl (Call.flags x) (i, false, false)).2.1 = true) ∧
        ((cs.foldl (Call.flags x) (i, false, false)).2.2 = false ∨
          lastCallIsAdd x cs = true) := by
  induction cs using List.reverseRecOn with
  | nil => simp [lastCallIsAdd]
  | append_singleton cs c ih =>
    rw [List.foldl_append, List.foldl_cons, List.foldl_nil, lastCallIsAdd_append]
    generalize cs.foldl (Call.flags x) (i, false, false) = f at ih ⊢
    generalize lastCallIsAdd x cs = l at ih ⊢
    obtain ⟨m, a, r⟩ := f
    cases c with
    | add v =>
      by_cases hx : v = x
      · simp [Call.flags, hx]
      · simpa [Call.flags, hx] using ih
    | remove v =>
      by_cases hx : v = x
      · cases m
        · simp only [Call.flags, hx, if_true] at ih ⊢
          revert ih
          cases i <;> cases a <;> cases r <;> cases l <;> simp
        · simp [Call.flags, hx]
      · simpa [Call.flags, hx] using ih

theorem Trackable.WF.wf_of_length_le {ts : Trackable E} {h h1 : Heap E} (hwf : ts.WF h)
    (hlen : h.length ≤ h1.length) : ts.WF h1 :=
  ⟨hwf.1.live_of_length_le hlen, hwf.2.1.live_of_length_le hlen, hwf.2.2.1.live_of_length_le hlen,
    hwf.2.2.2⟩

theorem Trackable.Intersection_spec (ord ord2 : RangeOrder E) {a b : Trackable E}
    {h : Heap E} (ha : a.set.Valid h) (hb : b.set.Valid h) :
    ∃ r h1, a.Intersection ord ord2 b h = some (r, h1) ∧ r.WF h1 ∧ Heap.Grows h h1 ∧
      (∀ x, x ∈ r.set.keys h1 ↔ x ∈ a.set.keys h ∧ x ∈ b.set.keys h) ∧
      r.toBeAdded.keys h1 = [] ∧ r.toBeRemoved.keys h1 = [] ∧
      (¬ r.set.Live h ∧ ¬ r.toBeAdded.Live h ∧ ¬ r.toBeRemoved.Live h) := by
  obtain ⟨i, h0, e0, _, _, g0, k0⟩ := Set.Intersection_keys ord ha hb
  obtain ⟨r, h1, e1, hwf, g1, ⟨fs, fa, fr⟩, ks, ka, kr⟩ :=
    NewTrackable_spec (i.Items ord2 h0) h0
  refine ⟨r, h1, by simp [Trackable.Intersection, e0, e1], hwf, g0.grows_trans g1, ?_, ka, kr,
    fun hl => fs (g0.grows_live hl), fun hl => fa (g0.grows_live hl),
    fun hl => fr (g0.grows_live hl)⟩
  intro x
  rw [ks, Set.mem_Items, k0]

theorem Trackable.Diff_spec (ord ord2 : RangeOrder E) {a b : Trackable E}
    {h : Heap E} (ha : a.set.Valid h) (hb : b.set.Valid h) :
    ∃ r h1, a.Diff ord ord2 b h = some (r, h1) ∧ r.WF h1 ∧ Heap.Grows h h1 ∧
      (∀ x, x ∈ r.set.keys h1 ↔ x ∈ a.set.keys h ∧ x ∉ b.set.keys h) ∧
      r.toBeAdded.keys h1 = [] ∧ r.toBeRemoved.keys h1 = [] ∧
      (¬ r.set.Live h ∧ ¬ r.toBeAdded.Live h ∧ ¬ r.toBeRemoved.Live h) := by
  obtain ⟨i, h0, e0, _, _, g0, k0⟩ := Set.Diff_keys ord ha hb
  obtain ⟨r, h1, e1, hwf, g1, ⟨fs, fa, fr⟩, ks, ka, kr⟩ :=
    NewTrackable_spec (i.Items ord2 h0) h0
  refine ⟨r, h1, by simp [Trackable.Diff, e0, e1], hwf, g0.grows_trans g1, ?_, ka, kr,
    fun hl => fs (g0.grows_live hl), fun hl => fa (g0.grows_live hl),
    fun hl => fr (g0.grows_live hl)⟩
  intro x
  rw [ks, Set.mem_Items, k0]

/-- A fresh trackable set holds the contents of any trackable set with the same members and
empty tracking sets. -/
theorem NewTrackable_sameContents {r : Trackable E} {h1 : Heap E} (vs : List E)
    (h2 : Heap E) (ks : ∀ x, x ∈ r.set.keys h1 ↔ x ∈ vs) (ka : r.toBeAdded.keys h1 = [])
    (kr : r.toBeRemoved.keys h1 = []) :
    ∃ n h3, NewTrackable vs h2 = some (n, h3) ∧ n.WF h3 ∧ r.SameContents h1 n h3 := by
  obtain ⟨n, h3, e, nwf, _, _, ns, na, nr⟩ := NewTrackable_spec vs h2
  refine ⟨n, h3, e, nwf, ?_, ?_, ?_⟩
  · intro x
    simp only [Trackable.Contains, Set.Contains, mapaccess, ks x, ns x]
  · intro x
    simp only [Trackable.ToBeAdded, Set.Contains, mapaccess, ka, na]
  · intro x
    simp only [Trackable.ToBeRemoved, Set.Contains, mapaccess, kr, nr]

theorem Trackable.Clone_spec (ord ord2 ord3 : RangeOrder E) {ts : Trackable E} {h : Heap E}
    (hs : ts.set.Valid h) (ha : ts.toBeAdded.Valid h) (hr : ts.toBeRemoved.Valid h) :
    ∃ c h1, ts.Clone ord ord2 ord3 h = some (c, h1) ∧ c.WF h1 ∧ Heap.Grows h h1 ∧
      (¬ c.set.Live h ∧ ¬ c.toBeAdded.Live h ∧ ¬ c.toBeRemoved.Live h) ∧
      (∀ x, x ∈ c.set.keys h1 ↔ x ∈ ts.set.keys h) ∧
      (∀ x, x ∈ c.toBeAdded.keys h1 ↔ x ∈ ts.toBeAdded.keys h) ∧
      (∀ x, x ∈ c.toBeRemoved.keys h1 ↔ x ∈ ts.toBeRemoved.keys h) := by
  obtain ⟨s1, h1, e1, l1, f1, g1, k1⟩ := Set.Clone_keys ord hs
  obtain ⟨s2, h2, e2, l2, f2, g2, k2⟩ := Set.Clone_keys ord2 (ha.valid_of_length_le g1.1)
  obtain ⟨s3, h3, e3, l3, f3, g3, k3⟩ :=
    Set.Clone_keys ord3 (hr.valid_of_length_le (g1.grows_trans g2).1)
  have l1v : s1.Valid h1 := l1.valid
  have l2v : s2.Valid h2 := l2.valid
  refine ⟨⟨s1, s2, s3⟩, h3, by simp [Trackable.Clone, e1, e2, e3], ?_, (g1.grows_trans g2).grows_trans g3,
    ⟨f1, fun hl => f2 (g1.grows_live hl), fun hl => f3 ((g1.grows_trans g2).grows_live hl)⟩, ?_, ?_, ?_⟩
  · exact ⟨(g2.grows_trans g3).grows_live l1, g3.grows_live l2, l3, l1v.ne_of_fresh l2 f2,
      (l1v.valid_of_length_le g2.1).ne_of_fresh l3 f3, l2v.ne_of_fresh l3 f3⟩
  · intro x
    rw [(g2.grows_trans g3).2 s1 l1v]
    exact k1 x
  · intro x
    rw [g3.2 s2 l2v, k2, g1.2 _ ha]
  · intro x
    rw [k3, (g1.grows_trans g2).2 _ hr]

/-- Calls on one trackable set leave alone another one whose maps are all different. -/
theorem runCalls_unchanged {ts other : Trackable E} (cs : List (Call E)) {h : Heap E}
    (hwf : ts.WF h)
    (hs : other.set ≠ ts.set ∧ other.set ≠ ts.toBeAdded ∧ other.set ≠ ts.toBeRemoved)
    (ha : other.toBeAdded ≠ ts.set ∧ other.toBeAdded ≠ ts.toBeAdded ∧
      other.toBeAdded ≠ ts.toBeRemoved)
    (hr : other.toBeRemoved ≠ ts.set ∧ other.toBeRemoved ≠ ts.toBeAdded ∧
      other.toBeRemoved ≠ ts.toBeRemoved) :
    ∃ h1, runCalls cs ts h = some (ts, h1) ∧ other.Unchanged h h1 := by
  obtain ⟨h1, e, _, _, fr⟩ := runCalls_spec cs hwf
  exact ⟨h1, e, fr _ hs.1 hs.2.1 hs.2.2, fr _ ha.1 ha.2.1 ha.2.2, fr _ hr.1 hr.2.1 hr.2.2⟩

/-- From flags `(i, false, false)`, after any calls: a member was one at the start or is
marked added; an element that was a member at the start is still one or is marked removed;
an element marked removed was a member at the start or is marked added; and the element is
marked added exactly when some call was an `Add` of it. -/
theorem flags_window (x : E) (i : Bool) (cs : List (Call E)) :
    ((cs.foldl (Call.flags x) (i, false, false)).1 = true →
        i = true ∨ (cs.foldl (Call.flags x) (i, false, false)).2.1 = true) ∧
      (i = true → (cs.foldl (Call.flags x) (i, false, false)).1 = true ∨
        (cs.foldl (Call.flags x) (i, false, false)).2.2 = true) ∧
      ((cs.foldl (Call.flags x) (i, false, false)).2.2 = true →
        i = true ∨ (cs.foldl (Call.flags x) (i, false, false)).2.1 = true) ∧
      ((cs.foldl (Call.flags x) (i, false, false)).2.1 = true ↔ Call.add x ∈ cs) := by
  induction cs using List.reverseRecOn with
  | nil => simp
  | append_singleton cs c ih =>
    rw [List.foldl_append, List.foldl_cons, List.foldl_nil]
    generalize cs.foldl (Call.flags x) (i, false, false) = f at ih ⊢
    obtain ⟨m, a, r⟩ := f
    obtain ⟨ih1, ih2, ih3, ih4⟩ := ih
    simp only at ih1 ih2 ih3 ih4
    cases c with
    | add v =>
      by_cases hx : v = x
      · subst hx
        simp [Call.flags]
      · have hx2 : ¬ x = v := fun e => hx e.symm
        simp only [Call.flags, hx, if_false, List.mem_append, List.mem_singleton,
          Call.add.injEq, hx2, or_false]
        exact ⟨ih1, ih2, ih3, ih4⟩
    | remove v =>
      by_cases hx : v = x ∧ m = true
      · obtain ⟨hv, hm⟩ := hx
        subst hm
        have hia := ih1 rfl
        simp only [Call.flags, hv, and_self, if_true, List.mem_append, List.mem_singleton,
          or_false, reduceCtorEq]
        exact ⟨by simp, by simp, fun _ => hia, ih4⟩
      · simp only [Call.flags, hx, if_false, List.mem_append, List.mem_singleton, or_false,
          reduceCtorEq]
        exact ⟨ih1, ih2, ih3, ih4⟩

theorem Set.Intersects_loop_eq_any (s2 : Set E) (h : Heap E) (vs : List E) :
    Set.Intersects.loop s2 h vs = vs.any (fun v => s2.Contains v h) := by
  induction vs with
  | nil => rfl
  | cons v vs ih =>
    by_cases hc : s2.Contains v h = true
    · simp [Set.Intersects.loop, hc]
    · simp [Set.Intersects.loop, hc, ih]

theorem Set.Intersects_iff (ord : RangeOrder E) (s s2 : Set E) (h : Heap E) :
    s.Intersects ord s2 h = true ↔ ∃ v, v ∈ s.keys h ∧ v ∈ s2.keys h := by
  rw [Set.Intersects, Set.Intersects_loop_eq_any, List.any_eq_true]
  constructor
  · rintro ⟨v, hv, hc⟩
    exact ⟨v, (Set.mem_Items ord s h v).mp hv, (Set.Contains_iff _ _ _).mp hc⟩
  · rintro ⟨v, hv, hc⟩
    exact ⟨v, (Set.mem_Items ord s h v).mpr hv, (Set.Contains_iff _ _ _).mpr hc⟩

theorem Set.Count_pos_iff (s : Set E) (h : Heap E) : s.Count h > 0 ↔ ∃ v, v ∈ s.keys h := by
  rw [Set.Count_eq, gt_iff_lt, List.length_pos_iff_exists_mem]

theorem Set.Contains_congr {s t : Set E} {h h1 : Heap E} (x : E)
    (hk : x ∈ s.keys h ↔ x ∈ t.keys h1) : s.Contains x h = t.Contains x h1 := by
  simp only [Set.Contains, mapaccess, hk]

theorem Heap.set_same {h : Heap E} {a : Nat} {m : GoMap E} (hm : h[a]? = some m) :
    h.set a m = h := by
  apply List.ext_getElem?
  intro i
  by_cases hi : a = i
  · subst hi
    rw [List.getElem?_set_self (Heap.lt_of_getElem? hm), hm]
  · rw [List.getElem?_set_ne hi]

theorem GoMap.ext_keys {m n : GoMap E} (hk : m.keys = n.keys) : m = n := by
  cases m
  cases n
  simp only at hk
  subst hk
  rfl

/-- Deleting an absent key leaves the whole heap as it was. -/
theorem mapdelete_absent {s : Set E} {v : E} {h : Heap E} (hv : v ∉ s.keys h) :
    mapdelete s v h = h := by
  cases ha : s.addr with
  | none => simp only [mapdelete, ha]
  | some a =>
    cases hm : h[a]? with
    | none => simp only [mapdelete, ha, hm]
    | some m =>
      have hk : s.keys h = m.keys := by simp only [Set.keys, ha, hm]
      have he : m.erase v = m :=
        GoMap.ext_keys (List.erase_of_not_mem (by rw [← hk]; exact hv))
      simp only [mapdelete, ha, hm, he]
      exact Heap.set_same hm

/-- Assigning a key that is present leaves the whole heap as it was. -/
theorem mapassign_present {s : Set E} {v : E} {h : Heap E} (hv : v ∈ s.keys h) :
    mapassign s v h = some h := by
  cases ha : s.addr with
  | none => simp [Set.keys, ha] at hv
  | some a =>
    cases hm : h[a]? with
    | none => simp [Set.keys, ha, hm] at hv
    | some m =>
      have hk : s.keys h = m.keys := by simp only [Set.keys, ha, hm]
      have he : m.insert v = m :=
        GoMap.ext_keys (List.insert_of_mem (by rw [← hk]; exact hv))
      simp only [mapassign, ha, hm, he]
      rw [Heap.set_same hm]

theorem New_keys_perm (vs : List E) (h : Heap E) :
    ∃ s h1, New vs h = some (s, h1) ∧ (∀ x, x ∈ s.keys h1 ↔ x ∈ vs) ∧
      (s.keys h1).Perm vs.dedup := by
  obtain ⟨s, h1, e, _, _, _, k⟩ := New_spec vs h
  refine ⟨s, h1, e, k, ?_⟩
  rw [List.perm_ext_iff_of_nodup (s.nodup_keys h1) (List.nodup_dedup vs)]
  intro x
  rw [k x, List.mem_dedup]

theorem SetCall.run_only {s : Set E} {h : Heap E} (hl : s.Live h) (c : SetCall E) :
    ∃ h1, c.run s h = some h1 ∧ Heap.Only s h h1 := by
  cases c with
  | add v =>
    obtain ⟨h1, e, o, _⟩ := Set.Add_keys hl v
    exact ⟨h1, by simp [SetCall.run, e], o⟩
  | remove v => exact ⟨_, rfl, (Set.Remove_keys s v h).2.1⟩
  | flush => exact ⟨_, rfl, (Set.Flush_keys s h).1⟩

theorem runSetCalls_spec {s : Set E} (cs : List (SetCall E)) {h : Heap E} (hl : s.Live h) :
    ∃ h1, runSetCalls s cs h = some h1 ∧ Heap.Only s h h1 := by
  induction cs generalizing h with
  | nil => exact ⟨h, rfl, Heap.Only.only_refl s h⟩
  | cons c cs ih =>
    obtain ⟨h1, e1, o1⟩ := SetCall.run_only hl c
    obtain ⟨h2, e2, o2⟩ := ih (o1.only_live hl)
    exact ⟨h2, by simp [runSetCalls, e1, e2], o1.only_trans o2⟩

/-- Go panics on a write to a `nil` map: `Add` on the `nil` set value does not return. -/
theorem Set.Add_nil (v : E) (h : Heap E) : (⟨none⟩ : Set E).Add v h = none := by
  simp [Set.Add, mapassign]

/-! ## The concrete states are states of the program -/

theorem exampleHeap_built :
    NewTrackable [1, 2, 3] ([] : Heap Nat) = some (exampleTrackable, exampleHeap) := by
  decide

theorem exampleHeapChanged_built :
    runCalls [Call.add 4, Call.remove 2] exampleTrackable exampleHeap =
      some (exampleTrackable, exampleHeapChanged) := by
  decide

theorem examplePairHeap_built :
    ((NewTrackable [1, 2, 3, 4] ([] : Heap Nat)).bind fun r =>
        (NewTrackable [3, 4, 5] r.2).map fun r2 => (r.1, r2.1, r2.2)) =
      some (exampleTrackable, exampleTrackable2, examplePairHeap) := by
  decide

theorem exampleSetHeap_built :
    ((New [1, 2, 3, 4] ([] : Heap Nat)).bind fun r =>
        (New [3, 4, 5] r.2).map fun r2 => (r.1, r2.1, r2.2)) =
      some (exampleSet, exampleSet2, exampleSetHeap) := by
  decide

/-! ## The claims about `Trackable` -/

/-- C1 as stated fails.  After `NewTrackable(1)`, `Remove(1)`, `Add(1)` the element 1 is a
member again, yet it is still in `ToBeRemoved()`: replaying the inserts and then the deletes
on the initial membership drops it. -/
theorem Trackable.replay_counterexample :
    ∃ ts h,
      (NewTrackable [1] ([] : Heap Nat)).bind
          (fun r => runCalls [Call.remove 1, Call.add 1] r.1 r.2) = some (ts, h) ∧
        ¬ (ts.Contains 1 h = true ↔
            (1 ∈ [1] ∨ ts.ToBeAdded.Contains 1 h = true) ∧
              ¬ ts.ToBeRemoved.Contains 1 h = true) :=
  ⟨⟨⟨some 0⟩, ⟨some 1⟩, ⟨some 2⟩⟩,
    [⟨[1], by decide⟩, ⟨[1], by decide⟩, ⟨[1], by decide⟩], by decide, by decide⟩

/-- C1, amended.  For every list of initial values, every finite sequence of `Add` and
`Remove` calls and every starting heap, `NewTrackable` followed by the calls returns, and
for every element `x`: `Contains(x)` holds iff (`x` is an initial value or
`ToBeAdded().Contains(x)`) and (`ToBeRemoved().Contains(x)` is false or the last call with
argument `x` was an `Add`). -/
theorem Trackable.replay_membership (vs : List E) (cs : List (Call E)) (h0 : Heap E) :
    ∃ ts h,
      (NewTrackable vs h0).bind (fun r => runCalls cs r.1 r.2) = some (ts, h) ∧
        ∀ x, ts.Contains x h = true ↔
          (x ∈ vs ∨ ts.ToBeAdded.Contains x h = true) ∧
            (ts.ToBeRemoved.Contains x h = false ∨ lastCallIsAdd x cs = true) := by
  obtain ⟨ts, h1, e1, hwf, _, _, ks, ka, kr⟩ := NewTrackable_spec vs h0
  obtain ⟨h2, e2, _, fl, _⟩ := runCalls_spec cs hwf
  refine ⟨ts, h2, by simp [e1, e2], ?_⟩
  intro x
  have h0f : ts.flags x h1 = (decide (x ∈ vs), false, false) := by
    simp only [Trackable.flags, Trackable.Contains, Trackable.ToBeAdded,
      Trackable.ToBeRemoved, Set.Contains, mapaccess, ka, kr]
    simp [ks x]
  have hf := fl x
  rw [h0f] at hf
  have hr := flags_replay x (decide (x ∈ vs)) cs
  rw [← hf] at hr
  simpa [Trackable.flags] using hr

/-- C2.  `Trackable.Remove(v)`.  If `v` is not a member, the call returns the receiver and
the heap as it was, so membership, `ToBeAdded()` and `ToBeRemoved()` are unchanged; this
holds for every trackable value.  If `v` is a member of a well-formed trackable set, the
call returns the receiver, and afterwards `Contains(v)` is false,
`ToBeRemoved().Contains(v)` is true, the membership of every other element is unchanged,
`ToBeAdded()` holds the same keys, and `ToBeRemoved()` is unchanged at every other
element. -/
theorem Trackable.Remove_post (ts : Trackable E) (v : E) (h : Heap E) :
    (ts.Contains v h = false → ts.Remove v h = some (ts, h)) ∧
      (ts.WF h → ts.Contains v h = true →
        ∃ h1, ts.Remove v h = some (ts, h1) ∧
          ts.Contains v h1 = false ∧ ts.ToBeRemoved.Contains v h1 = true ∧
          (∀ w, w ≠ v → ts.Contains w h1 = ts.Contains w h) ∧
          ts.ToBeAdded.keys h1 = ts.ToBeAdded.keys h ∧
          (∀ w, w ≠ v → ts.ToBeRemoved.Contains w h1 = ts.ToBeRemoved.Contains w h)) := by
  constructor
  · intro hc
    exact Trackable.Remove_absent ts ((Set.Contains_eq_false _ _ _).mp hc)
  · intro hwf hc
    have hv : v ∈ ts.set.keys h := (Set.Contains_iff _ _ _).mp hc
    obtain ⟨h1, e, _, ks, ka, kr, _⟩ := Trackable.Remove_present hwf hv
    refine ⟨h1, e, ?_, ?_, ?_, ka, ?_⟩
    · simp [Trackable.Contains, Set.Contains, mapaccess, ks,
        (ts.set.nodup_keys h).mem_erase_iff]
    · simp [Trackable.ToBeRemoved, Set.Contains, mapaccess, kr]
    · intro w hw
      simp [Trackable.Contains, Set.Contains, mapaccess, ks,
        (ts.set.nodup_keys h).mem_erase_iff, hw]
    · intro w hw
      simp [Trackable.ToBeRemoved, Set.Contains, mapaccess, kr, hw]

/-- C2 at `NewTrackable(1, 2, 3)`: `Remove(4)` of the non-member 4 changes nothing, and
`Remove(2)` of the member 2 has the stated effect. -/
theorem Trackable.Remove_post_witness :
    (exampleTrackable.Contains 4 exampleHeap = false ∧
        exampleTrackable.Remove 4 exampleHeap = some (exampleTrackable, exampleHeap)) ∧
      (exampleTrackable.WF exampleHeap ∧ exampleTrackable.Contains 2 exampleHeap = true) ∧
      ∃ h1, exampleTrackable.Remove 2 exampleHeap = some (exampleTrackable, h1) ∧
        exampleTrackable.Contains 2 h1 = false ∧
        exampleTrackable.ToBeRemoved.Contains 2 h1 = true ∧
        (∀ w, w ≠ 2 →
          exampleTrackable.Contains w h1 = exampleTrackable.Contains w exampleHeap) ∧
        exampleTrackable.ToBeAdded.keys h1 = exampleTrackable.ToBeAdded.keys exampleHeap ∧
        (∀ w, w ≠ 2 → exampleTrackable.ToBeRemoved.Contains w h1 =
          exampleTrackable.ToBeRemoved.Contains w exampleHeap) :=
  ⟨⟨by decide, (Trackable.Remove_post exampleTrackable 4 exampleHeap).1 (by decide)⟩,
    ⟨by decide, by decide⟩,
    (Trackable.Remove_post exampleTrackable 2 exampleHeap).2 (by decide) (by decide)⟩

/-- C3.  `Trackable.Add` on a well-formed trackable set returns the receiver, and afterwards
`Contains(v)` and `ToBeAdded().Contains(v)` are true (no condition on `v` having been a
member), the membership of every other element is unchanged, `ToBeAdded()` is unchanged at
every other element, and `ToBeRemoved()` holds the same keys.  On a fresh `NewTrackable`
set, `ToBeRemoved().Count()` is 0 after the `Add`. -/
theorem Trackable.Add_post (ts : Trackable E) (v : E) (h : Heap E) (hwf : ts.WF h) :
    (∃ h1, ts.Add v h = some (ts, h1) ∧
        ts.Contains v h1 = true ∧ ts.ToBeAdded.Contains v h1 = true ∧
        (∀ w, w ≠ v → ts.Contains w h1 = ts.Contains w h) ∧
        (∀ w, w ≠ v → ts.ToBeAdded.Contains w h1 = ts.ToBeAdded.Contains w h) ∧
        ts.ToBeRemoved.keys h1 = ts.ToBeRemoved.keys h) ∧
      ∀ (vs : List E) (h0 : Heap E),
        ∃ n h1 h2, NewTrackable vs h0 = some (n, h1) ∧ n.Add v h1 = some (n, h2) ∧
          n.ToBeRemoved.Count h2 = 0 := by
  constructor
  · obtain ⟨h1, e, _, ks, ka, kr, _⟩ := Trackable.Add_spec hwf v
    refine ⟨h1, e, ?_, ?_, ?_, ?_, kr⟩
    · simp [Trackable.Contains, Set.Contains, mapaccess, ks]
    · simp [Trackable.ToBeAdded, Set.Contains, mapaccess, ka]
    · intro w hw
      simp [Trackable.Contains, Set.Contains, mapaccess, ks, hw]
    · intro w hw
      simp [Trackable.ToBeAdded, Set.Contains, mapaccess, ka, hw]
  · intro vs h0
    obtain ⟨n, h1, e1, nwf, _, _, _, _, kr⟩ := NewTrackable_spec vs h0
    obtain ⟨h2, e2, _, _, _, kr2, _⟩ := Trackable.Add_spec nwf v
    exact ⟨n, h1, h2, e1, e2, by
      simp [Trackable.ToBeRemoved, Set.Count, maplen, kr2, kr]⟩

/-- C3 at `NewTrackable(1, 2, 3)` and the new element 4. -/
theorem Trackable.Add_post_witness :
    exampleTrackable.WF exampleHeap ∧
      ((∃ h1, exampleTrackable.Add 4 exampleHeap = some (exampleTrackable, h1) ∧
          exampleTrackable.Contains 4 h1 = true ∧
          exampleTrackable.ToBeAdded.Contains 4 h1 = true ∧
          (∀ w, w ≠ 4 →
            exampleTrackable.Contains w h1 = exampleTrackable.Contains w exampleHeap) ∧
          (∀ w, w ≠ 4 → exampleTrackable.ToBeAdded.Contains w h1 =
            exampleTrackable.ToBeAdded.Contains w exampleHeap) ∧
          exampleTrackable.ToBeRemoved.keys h1 =
            exampleTrackable.ToBeRemoved.keys exampleHeap) ∧
        ∀ (vs : List Nat) (h0 : Heap Nat),
          ∃ n h1 h2, NewTrackable vs h0 = some (n, h1) ∧ n.Add 4 h1 = some (n, h2) ∧
            n.ToBeRemoved.Count h2 = 0) :=
  ⟨by decide, Trackable.Add_post exampleTrackable 4 exampleHeap (by decide)⟩

/-- C4.  `Trackable.Flush` in any state: afterwards `ToBeAdded()` and `ToBeRemoved()` are
empty (count 0, no element contained) and `HasChanges()` is false; this holds for every
trackable value.  On a well-formed trackable set `Contains(x)` is unchanged for every `x`
and `Count()` is unchanged. -/
theorem Trackable.Flush_post (ts : Trackable E) (h : Heap E) :
    (ts.ToBeAdded.Count (ts.Flush h) = 0 ∧
        (∀ x, ts.ToBeAdded.Contains x (ts.Flush h) = false) ∧
        ts.ToBeRemoved.Count (ts.Flush h) = 0 ∧
        (∀ x, ts.ToBeRemoved.Contains x (ts.Flush h) = false) ∧
        ts.HasChanges (ts.Flush h) = false) ∧
      (ts.WF h →
        (∀ x, ts.Contains x (ts.Flush h) = ts.Contains x h) ∧
          ts.Count (ts.Flush h) = ts.Count h) := by
  obtain ⟨_, ka, kr, fr⟩ := Trackable.Flush_spec ts h
  refine ⟨⟨?_, ?_, ?_, ?_, ?_⟩, fun hwf => ?_⟩
  · simp [Trackable.ToBeAdded, Set.Count, maplen, ka]
  · intro x
    simp [Trackable.ToBeAdded, Set.Contains, mapaccess, ka]
  · simp [Trackable.ToBeRemoved, Set.Count, maplen, kr]
  · intro x
    simp [Trackable.ToBeRemoved, Set.Contains, mapaccess, kr]
  · simp [Trackable.HasChanges, Set.Count, maplen, ka, kr]
  · have ks : ts.set.keys (ts.Flush h) = ts.set.keys h := fr _ hwf.2.2.2.1 hwf.2.2.2.2.1
    refine ⟨?_, ?_⟩
    · intro x
      simp [Trackable.Contains, Set.Contains, mapaccess, ks]
    · simp [Trackable.Count, Set.Count, maplen, ks]

/-- C4 at `NewTrackable(1, 2, 3)` after `Add(4)` and `Remove(2)`: there are changes before
the `Flush`, and the members 1, 3, 4 stay. -/
theorem Trackable.Flush_post_witness :
    (exampleTrackable.WF exampleHeapChanged ∧
        exampleTrackable.HasChanges exampleHeapChanged = true ∧
        exampleTrackable.Count exampleHeapChanged = 3) ∧
      (∀ x, exampleTrackable.Contains x (exampleTrackable.Flush exampleHeapChanged) =
        exampleTrackable.Contains x exampleHeapChanged) ∧
      exampleTrackable.Count (exampleTrackable.Flush exampleHeapChanged) =
        exampleTrackable.Count exampleHeapChanged :=
  ⟨⟨by decide, by decide, by decide⟩,
    (Trackable.Flush_post exampleTrackable exampleHeapChanged).2 (by decide)⟩

/-- C5.  On a well-formed trackable set, `Add(x)` and then `Remove(x)` both return the
receiver, and afterwards `x` is in `ToBeAdded()` and in `ToBeRemoved()` at once while
`Contains(x)` is false; no condition on `x` having been a member before. -/
theorem Trackable.Add_Remove_not_cancelled (ts : Trackable E) (x : E) (h : Heap E)
    (hwf : ts.WF h) :
    ∃ h1 h2, ts.Add x h = some (ts, h1) ∧ ts.Remove x h1 = some (ts, h2) ∧
      ts.ToBeAdded.Contains x h2 = true ∧ ts.ToBeRemoved.Contains x h2 = true ∧
      ts.Contains x h2 = false := by
  obtain ⟨h1, e1, l1, ks1, ka1, _, _⟩ := Trackable.Add_spec hwf x
  have hx : x ∈ ts.set.keys h1 := by simp [ks1]
  obtain ⟨h2, e2, _, ks2, ka2, kr2, _⟩ := Trackable.Remove_present (hwf.wf_of_length_eq l1) hx
  refine ⟨h1, h2, e1, e2, ?_, ?_, ?_⟩
  · simp [Trackable.ToBeAdded, Set.Contains, mapaccess, ka2, ka1]
  · simp [Trackable.ToBeRemoved, Set.Contains, mapaccess, kr2]
  · simp [Trackable.Contains, Set.Contains, mapaccess, ks2,
      (ts.set.nodup_keys h1).mem_erase_iff]

/-- C5 at `NewTrackable(1, 2, 3)` and the member 3. -/
theorem Trackable.Add_Remove_not_cancelled_witness :
    exampleTrackable.WF exampleHeap ∧
      ∃ h1 h2, exampleTrackable.Add 3 exampleHeap = some (exampleTrackable, h1) ∧
        exampleTrackable.Remove 3 h1 = some (exampleTrackable, h2) ∧
        exampleTrackable.ToBeAdded.Contains 3 h2 = true ∧
        exampleTrackable.ToBeRemoved.Contains 3 h2 = true ∧
        exampleTrackable.Contains 3 h2 = false :=
  ⟨by decide, Trackable.Add_Remove_not_cancelled exampleTrackable 3 exampleHeap (by decide)⟩

/-- C6.  For every list of values and every starting heap, `NewTrackable` returns a
well-formed trackable set whose `Contains(x)` is true iff `x` occurs in the list, whose
`ToBeAdded()` and `ToBeRemoved()` are empty (count 0, no element contained) and whose
`HasChanges()` is false. -/
theorem NewTrackable_initial (vs : List E) (h0 : Heap E) :
    ∃ ts h, NewTrackable vs h0 = some (ts, h) ∧ ts.WF h ∧
      (∀ x, ts.Contains x h = true ↔ x ∈ vs) ∧
      ts.ToBeAdded.Count h = 0 ∧ (∀ x, ts.ToBeAdded.Contains x h = false) ∧
      ts.ToBeRemoved.Count h = 0 ∧ (∀ x, ts.ToBeRemoved.Contains x h = false) ∧
      ts.HasChanges h = false := by
  obtain ⟨ts, h, e, hwf, _, _, ks, ka, kr⟩ := NewTrackable_spec vs h0
  refine ⟨ts, h, e, hwf, ?_, ?_, ?_, ?_, ?_, ?_⟩
  · intro x
    simp [Trackable.Contains, ks x]
  · simp [Trackable.ToBeAdded, Set.Count, maplen, ka]
  · intro x
    simp [Trackable.ToBeAdded, Set.Contains, mapaccess, ka]
  · simp [Trackable.ToBeRemoved, Set.Count, maplen, kr]
  · intro x
    simp [Trackable.ToBeRemoved, Set.Contains, mapaccess, kr]
  · simp [Trackable.HasChanges, Set.Count, maplen, ka, kr]

/-- C9.  In any state, `HasChanges()` is true iff `ToBeAdded().Count() > 0` or
`ToBeRemoved().Count() > 0`.  On a well-formed trackable set it is true after any `Add`
(no condition on the element having been a member) and after any `Remove` of a member. -/
theorem Trackable.HasChanges_char (ts : Trackable E) (h : Heap E) :
    (ts.HasChanges h = true ↔ ts.ToBeAdded.Count h > 0 ∨ ts.ToBeRemoved.Count h > 0) ∧
      (ts.WF h →
        (∀ v, ∃ h1, ts.Add v h = some (ts, h1) ∧ ts.HasChanges h1 = true) ∧
        (∀ v, ts.Contains v h = true →
          ∃ h1, ts.Remove v h = some (ts, h1) ∧ ts.HasChanges h1 = true)) := by
  refine ⟨by simp [Trackable.HasChanges, Trackable.ToBeAdded, Trackable.ToBeRemoved],
    fun hwf => ⟨?_, ?_⟩⟩
  · intro v
    obtain ⟨h1, e, _, _, ka, _, _⟩ := Trackable.Add_spec hwf v
    refine ⟨h1, e, (Trackable.HasChanges_iff ts h1).mpr (Or.inl ?_)⟩
    rw [ka]
    exact List.ne_nil_of_mem (List.mem_insert_self v _)
  · intro v hc
    have hv : v ∈ ts.set.keys h := (Set.Contains_iff _ _ _).mp hc
    obtain ⟨h1, e, _, _, _, kr, _⟩ := Trackable.Remove_present hwf hv
    refine ⟨h1, e, (Trackable.HasChanges_iff ts h1).mpr (Or.inr ?_)⟩
    rw [kr]
    exact List.ne_nil_of_mem (List.mem_insert_self v _)

/-- C9 at `NewTrackable(1, 2, 3)`: `HasChanges()` is false before any call, true after
`Add(1)` of the member 1 and true after `Remove(2)` of the member 2. -/
theorem Trackable.HasChanges_char_witness :
    (exampleTrackable.WF exampleHeap ∧ exampleTrackable.HasChanges exampleHeap = false ∧
        exampleTrackable.Contains 1 exampleHeap = true ∧
        exampleTrackable.Contains 2 exampleHeap = true) ∧
      (∃ h1, exampleTrackable.Add 1 exampleHeap = some (exampleTrackable, h1) ∧
        exampleTrackable.HasChanges h1 = true) ∧
      (∃ h1, exampleTrackable.Remove 2 exampleHeap = some (exampleTrackable, h1) ∧
        exampleTrackable.HasChanges h1 = true) :=
  ⟨⟨by decide, by decide, by decide, by decide⟩,
    ((Trackable.HasChanges_char exampleTrackable exampleHeap).2 (by decide)).1 1,
    ((Trackable.HasChanges_char exampleTrackable exampleHeap).2 (by decide)).2 2 (by decide)⟩

/-- C7.  For trackable sets `a`, `b` in any tracking state whose member maps are map values
of the heap, and for every range order: `a.Intersection(b)` returns a trackable set whose
members are exactly the common members of `a` and `b`, and `a.Diff(b)` one whose members
are exactly the members of `a` that are not members of `b`.  Both results are what
`NewTrackable` builds: well formed (three allocated, pairwise distinct maps, none of them
`nil`), the three maps newly allocated and so none of them a map of the starting heap,
`ToBeAdded()` and `ToBeRemoved()` empty, and a later `Add` returns.  The result holds the
same contents as the well-formed set that `NewTrackable` returns for any list of exactly
those elements. -/
theorem Trackable.derived_discard_history (ord ord2 : RangeOrder E) (a b : Trackable E)
    (h : Heap E) (ha : a.set.Valid h) (hb : b.set.Valid h) :
    (∃ r h1, a.Intersection ord ord2 b h = some (r, h1) ∧
        r.WF h1 ∧
        (¬ r.set.Live h ∧ ¬ r.ToBeAdded.Live h ∧ ¬ r.ToBeRemoved.Live h) ∧
        (∀ x, r.Contains x h1 = true ↔ a.Contains x h = true ∧ b.Contains x h = true) ∧
        r.ToBeAdded.Count h1 = 0 ∧ r.ToBeRemoved.Count h1 = 0 ∧
        (∀ v, ∃ h2, r.Add v h1 = some (r, h2)) ∧
        ∀ (vs : List E) (h2 : Heap E),
          (∀ x, x ∈ vs ↔ a.Contains x h = true ∧ b.Contains x h = true) →
            ∃ n h3, NewTrackable vs h2 = some (n, h3) ∧ n.WF h3 ∧
              r.SameContents h1 n h3) ∧
      (∃ r h1, a.Diff ord ord2 b h = some (r, h1) ∧
        r.WF h1 ∧
        (¬ r.set.Live h ∧ ¬ r.ToBeAdded.Live h ∧ ¬ r.ToBeRemoved.Live h) ∧
        (∀ x, r.Contains x h1 = true ↔ a.Contains x h = true ∧ b.Contains x h = false) ∧
        r.ToBeAdded.Count h1 = 0 ∧ r.ToBeRemoved.Count h1 = 0 ∧
        (∀ v, ∃ h2, r.Add v h1 = some (r, h2)) ∧
        ∀ (vs : List E) (h2 : Heap E),
          (∀ x, x ∈ vs ↔ a.Contains x h = true ∧ b.Contains x h = false) →
            ∃ n h3, NewTrackable vs h2 = some (n, h3) ∧ n.WF h3 ∧
              r.SameContents h1 n h3) := by
  constructor
  · obtain ⟨r, h1, e, hwf, _, ks, ka, kr, hfr⟩ := Trackable.Intersection_spec ord ord2 ha hb
    refine ⟨r, h1, e, hwf, hfr, ?_, ?_, ?_, ?_, ?_⟩
    · intro x
      simp only [Trackable.Contains, Set.Contains_iff, ks x]
    · simp [Trackable.ToBeAdded, Set.Count, maplen, ka]
    · simp [Trackable.ToBeRemoved, Set.Count, maplen, kr]
    · intro v
      obtain ⟨h2, e2, _⟩ := Trackable.Add_spec hwf v
      exact ⟨h2, e2⟩
    · intro vs h2 hvs
      refine NewTrackable_sameContents vs h2 (fun x => ?_) ka kr
      rw [ks x, hvs x]
      simp only [Trackable.Contains, Set.Contains_iff]
  · obtain ⟨r, h1, e, hwf, _, ks, ka, kr, hfr⟩ := Trackable.Diff_spec ord ord2 ha hb
    refine ⟨r, h1, e, hwf, hfr, ?_, ?_, ?_, ?_, ?_⟩
    · intro x
      simp only [Trackable.Contains, Set.Contains_iff, Set.Contains_eq_false, ks x]
    · simp [Trackable.ToBeAdded, Set.Count, maplen, ka]
    · simp [Trackable.ToBeRemoved, Set.Count, maplen, kr]
    · intro v
      obtain ⟨h2, e2, _⟩ := Trackable.Add_spec hwf v
      exact ⟨h2, e2⟩
    · intro vs h2 hvs
      refine NewTrackable_sameContents vs h2 (fun x => ?_) ka kr
      rw [ks x, hvs x]
      simp only [Trackable.Contains, Set.Contains_iff, Set.Contains_eq_false]

/-- C7 at `NewTrackable(1, 2, 3, 4)` and `NewTrackable(3, 4, 5)`, where `Diff` returns a
well-formed trackable set with the items 1, 2 and empty tracking sets, on which `Add(9)`
returns. -/
theorem Trackable.derived_discard_history_witness :
    (exampleTrackable.set.Valid examplePairHeap ∧
        exampleTrackable2.set.Valid examplePairHeap) ∧
      ((exampleTrackable.Diff RangeOrder.stored RangeOrder.reversed exampleTrackable2
            examplePairHeap).map
          (fun r => (r.1.Items RangeOrder.stored r.2, r.1.ToBeAdded.Count r.2,
            r.1.ToBeRemoved.Count r.2, decide (r.1.WF r.2),
            (r.1.Add 9 r.2).isSome)) = some ([1, 2], 0, 0, true, true)) ∧
      ((∃ r h1, exampleTrackable.Intersection RangeOrder.stored RangeOrder.reversed
            exampleTrackable2 examplePairHeap = some (r, h1) ∧
          r.WF h1 ∧
          (¬ r.set.Live examplePairHeap ∧ ¬ r.ToBeAdded.Live examplePairHeap ∧
            ¬ r.ToBeRemoved.Live examplePairHeap) ∧
          (∀ x, r.Contains x h1 = true ↔ exampleTrackable.Contains x examplePairHeap = true ∧
            exampleTrackable2.Contains x examplePairHeap = true) ∧
          r.ToBeAdded.Count h1 = 0 ∧ r.ToBeRemoved.Count h1 = 0 ∧
          (∀ v, ∃ h2, r.Add v h1 = some (r, h2)) ∧
          ∀ (vs : List Nat) (h2 : Heap Nat),
            (∀ x, x ∈ vs ↔ exampleTrackable.Contains x examplePairHeap = true ∧
              exampleTrackable2.Contains x examplePairHeap = true) →
              ∃ n h3, NewTrackable vs h2 = some (n, h3) ∧ n.WF h3 ∧
                r.SameContents h1 n h3) ∧
        (∃ r h1, exampleTrackable.Diff RangeOrder.stored RangeOrder.reversed
            exampleTrackable2 examplePairHeap = some (r, h1) ∧
          r.WF h1 ∧
          (¬ r.set.Live examplePairHeap ∧ ¬ r.ToBeAdded.Live examplePairHeap ∧
            ¬ r.ToBeRemoved.Live examplePairHeap) ∧
          (∀ x, r.Contains x h1 = true ↔ exampleTrackable.Contains x examplePairHeap = true ∧
            exampleTrackable2.Contains x examplePairHeap = false) ∧
          r.ToBeAdded.Count h1 = 0 ∧ r.ToBeRemoved.Count h1 = 0 ∧
          (∀ v, ∃ h2, r.Add v h1 = some (r, h2)) ∧
          ∀ (vs : List Nat) (h2 : Heap Nat),
            (∀ x, x ∈ vs ↔ exampleTrackable.Contains x examplePairHeap = true ∧
              exampleTrackable2.Contains x examplePairHeap = false) →
              ∃ n h3, NewTrackable vs h2 = some (n, h3) ∧ n.WF h3 ∧
                r.SameContents h1 n h3)) :=
  ⟨⟨by decide, by decide⟩, by decide,
    Trackable.derived_discard_history RangeOrder.stored RangeOrder.reversed exampleTrackable
      exampleTrackable2 examplePairHeap (by decide) (by decide)⟩

/-- C8.  On a well-formed trackable set in any state and for every range order, `Clone`
returns a trackable set `c` with the same members, the same `ToBeAdded()` contents and the
same `ToBeRemoved()` contents, and leaves the receiver's three maps as they were.  Any
later sequence of `Add` and `Remove` calls on `c` leaves the three maps of the receiver
unchanged, and any such sequence on the receiver leaves the three maps of `c` unchanged. -/
theorem Trackable.Clone_independent (ord ord2 ord3 : RangeOrder E) (ts : Trackable E)
    (h : Heap E) (hwf : ts.WF h) :
    ∃ c h1, ts.Clone ord ord2 ord3 h = some (c, h1) ∧
      c.SameContents h1 ts h ∧ ts.Unchanged h h1 ∧
      (∀ cs, ∃ h2, runCalls cs c h1 = some (c, h2) ∧ ts.Unchanged h1 h2) ∧
      (∀ cs, ∃ h2, runCalls cs ts h1 = some (ts, h2) ∧ c.Unchanged h1 h2) := by
  have ls := hwf.1
  have la := hwf.2.1
  have lr := hwf.2.2.1
  obtain ⟨c, h1, e, cwf, g, ⟨fs, fa, fr⟩, ks, ka, kr⟩ :=
    Trackable.Clone_spec ord ord2 ord3 ls.valid la.valid lr.valid
  have cs1 := cwf.1
  have ca1 := cwf.2.1
  have cr1 := cwf.2.2.1
  have n1 := ls.valid.ne_of_fresh cs1 fs
  have n2 := ls.valid.ne_of_fresh ca1 fa
  have n3 := ls.valid.ne_of_fresh cr1 fr
  have n4 := la.valid.ne_of_fresh cs1 fs
  have n5 := la.valid.ne_of_fresh ca1 fa
  have n6 := la.valid.ne_of_fresh cr1 fr
  have n7 := lr.valid.ne_of_fresh cs1 fs
  have n8 := lr.valid.ne_of_fresh ca1 fa
  have n9 := lr.valid.ne_of_fresh cr1 fr
  refine ⟨c, h1, e, ⟨?_, ?_, ?_⟩, ⟨g.2 _ ls.valid, g.2 _ la.valid, g.2 _ lr.valid⟩, ?_, ?_⟩
  · intro x
    simp only [Trackable.Contains, Set.Contains, mapaccess, ks x]
  · intro x
    simp only [Trackable.ToBeAdded, Set.Contains, mapaccess, ka x]
  · intro x
    simp only [Trackable.ToBeRemoved, Set.Contains, mapaccess, kr x]
  · intro cs
    exact runCalls_unchanged cs cwf ⟨n1, n2, n3⟩ ⟨n4, n5, n6⟩ ⟨n7, n8, n9⟩
  · intro cs
    exact runCalls_unchanged cs (hwf.wf_of_length_le g.1) ⟨n1.symm, n4.symm, n7.symm⟩
      ⟨n2.symm, n5.symm, n8.symm⟩ ⟨n3.symm, n6.symm, n9.symm⟩

/-- C8 at `NewTrackable(1, 2, 3)` after `Add(4)` and `Remove(2)`. -/
theorem Trackable.Clone_independent_witness :
    exampleTrackable.WF exampleHeapChanged ∧
      ∃ c h1, exampleTrackable.Clone RangeOrder.stored RangeOrder.reversed RangeOrder.stored
          exampleHeapChanged = some (c, h1) ∧
        c.SameContents h1 exampleTrackable exampleHeapChanged ∧
        exampleTrackable.Unchanged exampleHeapChanged h1 ∧
        (∀ cs, ∃ h2, runCalls cs c h1 = some (c, h2) ∧ exampleTrackable.Unchanged h1 h2) ∧
        (∀ cs, ∃ h2, runCalls cs exampleTrackable h1 = some (exampleTrackable, h2) ∧
          c.Unchanged h1 h2) :=
  ⟨by decide, Trackable.Clone_independent RangeOrder.stored RangeOrder.reversed
    RangeOrder.stored exampleTrackable exampleHeapChanged (by decide)⟩

/-- C20.  For every list of initial values, every finite sequence of `Add` and `Remove`
calls and every starting heap, `NewTrackable` followed by the calls returns, and for every
element `x`: (1) if `x` is a member, it is an initial value or is in `ToBeAdded()`; (2) if
`x` is an initial value and no longer a member, it is in `ToBeRemoved()`; (3) if `x` is in
`ToBeRemoved()`, it is an initial value or is in `ToBeAdded()`; (4) `x` is in `ToBeAdded()`
iff some call of the sequence is `Add(x)`; and if `x` is in neither tracking set, it is a
member iff it is an initial value. -/
theorem Trackable.tracking_window (vs : List E) (cs : List (Call E)) (h0 : Heap E) :
    ∃ ts h,
      (NewTrackable vs h0).bind (fun r => runCalls cs r.1 r.2) = some (ts, h) ∧
        ∀ x,
          (ts.Contains x h = true → x ∈ vs ∨ ts.ToBeAdded.Contains x h = true) ∧
          (x ∈ vs → ts.Contains x h = false → ts.ToBeRemoved.Contains x h = true) ∧
          (ts.ToBeRemoved.Contains x h = true →
            x ∈ vs ∨ ts.ToBeAdded.Contains x h = true) ∧
          (ts.ToBeAdded.Contains x h = true ↔ Call.add x ∈ cs) ∧
          (ts.ToBeAdded.Contains x h = false → ts.ToBeRemoved.Contains x h = false →
            (ts.Contains x h = true ↔ x ∈ vs)) := by
  obtain ⟨ts, h1, e1, hwf, _, _, ks, ka, kr⟩ := NewTrackable_spec vs h0
  obtain ⟨h2, e2, _, fl, _⟩ := runCalls_spec cs hwf
  refine ⟨ts, h2, by simp [e1, e2], ?_⟩
  intro x
  have h0f : ts.flags x h1 = (decide (x ∈ vs), false, false) := by
    simp only [Trackable.flags, Trackable.Contains, Trackable.ToBeAdded,
      Trackable.ToBeRemoved, Set.Contains, mapaccess, ka, kr]
    simp [ks x]
  have hf := fl x
  rw [h0f] at hf
  have hw := flags_window x (decide (x ∈ vs)) cs
  rw [← hf] at hw
  simp only [Trackable.flags, decide_eq_true_eq] at hw
  obtain ⟨w1, w2, w3, w4⟩ := hw
  refine ⟨w1, ?_, w3, w4, ?_⟩
  · intro hx hm
    rcases w2 hx with hc | hr
    · rw [hm] at hc
      cases hc
    · exact hr
  · intro ha hr
    constructor
    · intro hm
      rcases w1 hm with hi | hadd
      · exact hi
      · rw [ha] at hadd
        cases hadd
    · intro hi
      rcases w2 hi with hc | hrem
      · exact hc
      · rw [hr] at hrem
        cases hrem

/-- C20 at `NewTrackable(1, 2, 3)` followed by `Add(4)` and `Remove(2)`: the initial value
2 is no longer a member and is in `ToBeRemoved()`, and 3, in neither tracking set, is
still a member. -/
theorem Trackable.tracking_window_witness :
    ((2 ∈ [1, 2, 3] ∧ exampleTrackable.Contains 2 exampleHeapChanged = false) ∧
        exampleTrackable.ToBeRemoved.Contains 2 exampleHeapChanged = true) ∧
      ((exampleTrackable.ToBeAdded.Contains 3 exampleHeapChanged = false ∧
          exampleTrackable.ToBeRemoved.Contains 3 exampleHeapChanged = false) ∧
        (exampleTrackable.Contains 3 exampleHeapChanged = true ↔ 3 ∈ [1, 2, 3])) := by
  obtain ⟨ts, h, e, hx⟩ :=
    Trackable.tracking_window [1, 2, 3] [Call.add 4, Call.remove 2] ([] : Heap Nat)
  have e2 : (NewTrackable [1, 2, 3] ([] : Heap Nat)).bind
      (fun r => runCalls [Call.add 4, Call.remove 2] r.1 r.2) =
      some (exampleTrackable, exampleHeapChanged) := by decide
  rw [e2] at e
  cases e
  exact ⟨⟨⟨by decide, by decide⟩, (hx 2).2.1 (by decide) (by decide)⟩,
    ⟨by decide, by decide⟩, (hx 3).2.2.2.2 (by decide) (by decide)⟩

/-! ## The claims about `Set` -/

/-- C10.  For map values `s`, `s2` of the heap and every range order, `s.Intersection(s2)`
returns a set `r` with `r.Contains(v)` true iff `s.Contains(v)` and `s2.Contains(v)`; the
maps of `s` and `s2` hold the same keys afterwards; and `r` has the members and the count
of `New` applied to any list of exactly the common elements. -/
theorem Set.Intersection_membership (ord : RangeOrder E) (s s2 : Set E) (h : Heap E)
    (hs : s.Valid h) (hs2 : s2.Valid h) :
    ∃ r h1, s.Intersection ord s2 h = some (r, h1) ∧
      (∀ v, r.Contains v h1 = true ↔ s.Contains v h = true ∧ s2.Contains v h = true) ∧
      s.keys h1 = s.keys h ∧ s2.keys h1 = s2.keys h ∧
      ∀ (vs : List E) (h2 : Heap E),
        (∀ x, x ∈ vs ↔ s.Contains x h = true ∧ s2.Contains x h = true) →
          ∃ n h3, New vs h2 = some (n, h3) ∧
            (∀ x, r.Contains x h1 = n.Contains x h3) ∧ r.Count h1 = n.Count h3 := by
  obtain ⟨r, h1, e, _, _, g, k⟩ := Set.Intersection_keys ord hs hs2
  refine ⟨r, h1, e, ?_, g.2 _ hs, g.2 _ hs2, ?_⟩
  · intro v
    simp only [Set.Contains_iff, k v]
  · intro vs h2 hvs
    obtain ⟨n, h3, en, _, _, _, kn⟩ := New_spec vs h2
    have hk : ∀ x, x ∈ r.keys h1 ↔ x ∈ n.keys h3 := by
      intro x
      rw [k x, kn x, hvs x]
      simp only [Set.Contains_iff]
    refine ⟨n, h3, en, ?_, Set.Count_eq_of_mem_iff hk⟩
    intro x
    simp only [Set.Contains, mapaccess, hk x]

/-- C10 at `New(1, 2, 3, 4)` and `New(3, 4, 5)`, whose intersection has the items 3, 4. -/
theorem Set.Intersection_membership_witness :
    (exampleTrackable.set.Valid examplePairHeap ∧
        exampleTrackable2.set.Valid examplePairHeap) ∧
      (exampleTrackable.set.Intersection RangeOrder.reversed exampleTrackable2.set
          examplePairHeap).map (fun r => r.1.Items RangeOrder.stored r.2) = some [4, 3] ∧
      ∃ r h1, exampleTrackable.set.Intersection RangeOrder.reversed exampleTrackable2.set
          examplePairHeap = some (r, h1) ∧
        (∀ v, r.Contains v h1 = true ↔ exampleTrackable.set.Contains v examplePairHeap = true ∧
          exampleTrackable2.set.Contains v examplePairHeap = true) ∧
        exampleTrackable.set.keys h1 = exampleTrackable.set.keys examplePairHeap ∧
        exampleTrackable2.set.keys h1 = exampleTrackable2.set.keys examplePairHeap ∧
        ∀ (vs : List Nat) (h2 : Heap Nat),
          (∀ x, x ∈ vs ↔ exampleTrackable.set.Contains x examplePairHeap = true ∧
            exampleTrackable2.set.Contains x examplePairHeap = true) →
            ∃ n h3, New vs h2 = some (n, h3) ∧
              (∀ x, r.Contains x h1 = n.Contains x h3) ∧ r.Count h1 = n.Count h3 :=
  ⟨⟨by decide, by decide⟩, by decide,
    Set.Intersection_membership RangeOrder.reversed exampleTrackable.set exampleTrackable2.set
      examplePairHeap (by decide) (by decide)⟩

/-- C11.  For map values `s1`, `s2` of the heap and every pair of range orders,
`s1.Intersection(s2)` and then `s2.Intersection(s1)` both return, and the two results have
the same elements and the same `Count`; every element of the first result is in both
operands.  The same holds when the second call is made from the starting heap. -/
theorem Set.Intersection_comm (ord ord2 : RangeOrder E) (s1 s2 : Set E) (h : Heap E)
    (hs1 : s1.Valid h) (hs2 : s2.Valid h) :
    ∃ r1 h1, s1.Intersection ord s2 h = some (r1, h1) ∧
      (∀ x, r1.Contains x h1 = true → s1.Contains x h = true ∧ s2.Contains x h = true) ∧
      (∃ r2 h2, s2.Intersection ord2 s1 h1 = some (r2, h2) ∧
        (∀ x, r1.Contains x h2 = r2.Contains x h2) ∧ r1.Count h2 = r2.Count h2) ∧
      (∃ r3 h3, s2.Intersection ord2 s1 h = some (r3, h3) ∧
        (∀ x, r1.Contains x h1 = r3.Contains x h3) ∧ r1.Count h1 = r3.Count h3) := by
  obtain ⟨r1, h1, e1, l1, _, g1, k1⟩ := Set.Intersection_keys ord hs1 hs2
  obtain ⟨r2, h2, e2, _, _, g2, k2⟩ :=
    Set.Intersection_keys ord2 (hs2.valid_of_length_le g1.1) (hs1.valid_of_length_le g1.1)
  obtain ⟨r3, h3, e3, _, _, _, k3⟩ := Set.Intersection_keys ord2 hs2 hs1
  have hk12 : ∀ x, x ∈ r1.keys h2 ↔ x ∈ r2.keys h2 := by
    intro x
    rw [g2.2 r1 l1.valid, k1, k2, g1.2 s1 hs1, g1.2 s2 hs2, and_comm]
  have hk13 : ∀ x, x ∈ r1.keys h1 ↔ x ∈ r3.keys h3 := by
    intro x
    rw [k1, k3, and_comm]
  refine ⟨r1, h1, e1, ?_, ⟨r2, h2, e2, fun x => Set.Contains_congr x (hk12 x),
    Set.Count_eq_of_mem_iff hk12⟩, ⟨r3, h3, e3, fun x => Set.Contains_congr x (hk13 x),
    Set.Count_eq_of_mem_iff hk13⟩⟩
  intro x hx
  simpa only [Set.Contains_iff, k1 x] using hx

/-- C11 at `New(1, 2, 3, 4)` and `New(3, 4, 5)`: both intersections have the count 2. -/
theorem Set.Intersection_comm_witness :
    (exampleSet.Valid exampleSetHeap ∧ exampleSet2.Valid exampleSetHeap) ∧
      ((exampleSet.Intersection RangeOrder.stored exampleSet2 exampleSetHeap).map
          (fun r => r.1.Count r.2) = some 2 ∧
        (exampleSet2.Intersection RangeOrder.reversed exampleSet exampleSetHeap).map
          (fun r => r.1.Count r.2) = some 2) ∧
      ∃ r1 h1, exampleSet.Intersection RangeOrder.stored exampleSet2 exampleSetHeap =
          some (r1, h1) ∧
        (∀ x, r1.Contains x h1 = true →
          exampleSet.Contains x exampleSetHeap = true ∧
            exampleSet2.Contains x exampleSetHeap = true) ∧
        (∃ r2 h2, exampleSet2.Intersection RangeOrder.reversed exampleSet h1 =
            some (r2, h2) ∧
          (∀ x, r1.Contains x h2 = r2.Contains x h2) ∧ r1.Count h2 = r2.Count h2) ∧
        (∃ r3 h3, exampleSet2.Intersection RangeOrder.reversed exampleSet exampleSetHeap =
            some (r3, h3) ∧
          (∀ x, r1.Contains x h1 = r3.Contains x h3) ∧ r1.Count h1 = r3.Count h3) :=
  ⟨⟨by decide, by decide⟩, ⟨by decide, by decide⟩,
    Set.Intersection_comm RangeOrder.stored RangeOrder.reversed exampleSet exampleSet2
      exampleSetHeap (by decide) (by decide)⟩

/-- C12.  For map values `s`, `s2` of the heap and every range order, `s.Diff(s2)` returns
a set `r` with `r.Contains(v)` true iff `s.Contains(v)` and not `s2.Contains(v)`; so `r`
contains no element of `s2` and every element of `r` is in `s`; the maps of `s` and `s2`
hold the same keys afterwards; and `r` has the members and the count of `New` applied to
any list of exactly the elements of `s` that are not in `s2`. -/
theorem Set.Diff_membership (ord : RangeOrder E) (s s2 : Set E) (h : Heap E)
    (hs : s.Valid h) (hs2 : s2.Valid h) :
    ∃ r h1, s.Diff ord s2 h = some (r, h1) ∧
      (∀ v, r.Contains v h1 = true ↔ s.Contains v h = true ∧ s2.Contains v h = false) ∧
      (∀ v, s2.Contains v h = true → r.Contains v h1 = false) ∧
      (∀ v, r.Contains v h1 = true → s.Contains v h = true) ∧
      s.keys h1 = s.keys h ∧ s2.keys h1 = s2.keys h ∧
      ∀ (vs : List E) (h2 : Heap E),
        (∀ x, x ∈ vs ↔ s.Contains x h = true ∧ s2.Contains x h = false) →
          ∃ n h3, New vs h2 = some (n, h3) ∧
            (∀ x, r.Contains x h1 = n.Contains x h3) ∧ r.Count h1 = n.Count h3 := by
  obtain ⟨r, h1, e, _, _, g, k⟩ := Set.Diff_keys ord hs hs2
  have hm : ∀ v, r.Contains v h1 = true ↔ s.Contains v h = true ∧ s2.Contains v h = false := by
    intro v
    simp only [Set.Contains_iff, Set.Contains_eq_false, k v]
  refine ⟨r, h1, e, hm, ?_, fun v hv => ((hm v).mp hv).1, g.2 _ hs, g.2 _ hs2, ?_⟩
  · intro v hv
    cases hr : r.Contains v h1 with
    | false => rfl
    | true =>
      have := ((hm v).mp hr).2
      rw [hv] at this
      cases this
  · intro vs h2 hvs
    obtain ⟨n, h3, en, _, _, _, kn⟩ := New_spec vs h2
    have hk : ∀ x, x ∈ r.keys h1 ↔ x ∈ n.keys h3 := by
      intro x
      rw [k x, kn x, hvs x]
      simp only [Set.Contains_iff, Set.Contains_eq_false]
    exact ⟨n, h3, en, fun x => Set.Contains_congr x (hk x), Set.Count_eq_of_mem_iff hk⟩

/-- C12 at `New(1, 2, 3, 4)` and `New(3, 4, 5)`, whose difference has the items 1, 2. -/
theorem Set.Diff_membership_witness :
    (exampleSet.Valid exampleSetHeap ∧ exampleSet2.Valid exampleSetHeap) ∧
      (exampleSet.Diff RangeOrder.stored exampleSet2 exampleSetHeap).map
        (fun r => r.1.Items RangeOrder.stored r.2) = some [1, 2] ∧
      ∃ r h1, exampleSet.Diff RangeOrder.stored exampleSet2 exampleSetHeap = some (r, h1) ∧
        (∀ v, r.Contains v h1 = true ↔ exampleSet.Contains v exampleSetHeap = true ∧
          exampleSet2.Contains v exampleSetHeap = false) ∧
        (∀ v, exampleSet2.Contains v exampleSetHeap = true → r.Contains v h1 = false) ∧
        (∀ v, r.Contains v h1 = true → exampleSet.Contains v exampleSetHeap = true) ∧
        exampleSet.keys h1 = exampleSet.keys exampleSetHeap ∧
        exampleSet2.keys h1 = exampleSet2.keys exampleSetHeap ∧
        ∀ (vs : List Nat) (h2 : Heap Nat),
          (∀ x, x ∈ vs ↔ exampleSet.Contains x exampleSetHeap = true ∧
            exampleSet2.Contains x exampleSetHeap = false) →
            ∃ n h3, New vs h2 = some (n, h3) ∧
              (∀ x, r.Contains x h1 = n.Contains x h3) ∧ r.Count h1 = n.Count h3 :=
  ⟨⟨by decide, by decide⟩, by decide,
    Set.Diff_membership RangeOrder.stored exampleSet exampleSet2 exampleSetHeap (by decide)
      (by decide)⟩

/-- C13.  For map values `s`, `s2` of the heap and all range orders, `s.Intersects(s2)` is
true iff some element `v` has `s.Contains(v)` and `s2.Contains(v)`, iff
`s.Intersection(s2).Count() > 0`; and the loop with the early return gives the result of
testing every item of `s` against `s2`. -/
theorem Set.Intersects_agrees (ord ord2 : RangeOrder E) (s s2 : Set E) (h : Heap E)
    (hs : s.Valid h) (hs2 : s2.Valid h) :
    (s.Intersects ord s2 h = true ↔
        ∃ v, s.Contains v h = true ∧ s2.Contains v h = true) ∧
      s.Intersects ord s2 h = (s.Items ord h).any (fun v => s2.Contains v h) ∧
      ∃ r h1, s.Intersection ord2 s2 h = some (r, h1) ∧
        (s.Intersects ord s2 h = true ↔ r.Count h1 > 0) := by
  refine ⟨?_, Set.Intersects_loop_eq_any s2 h _, ?_⟩
  · simp only [Set.Intersects_iff, Set.Contains_iff]
  · obtain ⟨r, h1, e, _, _, _, k⟩ := Set.Intersection_keys ord2 hs hs2
    refine ⟨r, h1, e, ?_⟩
    rw [Set.Intersects_iff, Set.Count_pos_iff]
    exact exists_congr (fun v => (k v).symm)

/-- C13 at `New(1, 2, 3, 4)` and `New(3, 4, 5)`, which intersect. -/
theorem Set.Intersects_agrees_witness :
    (exampleSet.Valid exampleSetHeap ∧ exampleSet2.Valid exampleSetHeap) ∧
      exampleSet.Intersects RangeOrder.stored exampleSet2 exampleSetHeap = true ∧
      (exampleSet.Intersects RangeOrder.stored exampleSet2 exampleSetHeap = true ↔
        ∃ v, exampleSet.Contains v exampleSetHeap = true ∧
          exampleSet2.Contains v exampleSetHeap = true) ∧
      exampleSet.Intersects RangeOrder.stored exampleSet2 exampleSetHeap =
        (exampleSet.Items RangeOrder.stored exampleSetHeap).any
          (fun v => exampleSet2.Contains v exampleSetHeap) ∧
      ∃ r h1, exampleSet.Intersection RangeOrder.reversed exampleSet2 exampleSetHeap =
          some (r, h1) ∧
        (exampleSet.Intersects RangeOrder.stored exampleSet2 exampleSetHeap = true ↔
          r.Count h1 > 0) :=
  ⟨⟨by decide, by decide⟩, by decide,
    Set.Intersects_agrees RangeOrder.stored RangeOrder.reversed exampleSet exampleSet2
      exampleSetHeap (by decide) (by decide)⟩

/-- C14.  For every list of values (empty or with duplicates allowed) and every starting
heap, `New` returns a set whose `Contains(v)` is true iff `v` occurs in the list and whose
`Count()` is the number of distinct values of the list; `New()` has count 0. -/
theorem New_distinct_values (vs : List E) (h : Heap E) :
    (∃ s h1, New vs h = some (s, h1) ∧ (∀ v, s.Contains v h1 = true ↔ v ∈ vs) ∧
        s.Count h1 = vs.dedup.length) ∧
      ∃ s0 h0, New ([] : List E) h = some (s0, h0) ∧ s0.Count h0 = 0 := by
  constructor
  · obtain ⟨s, h1, e, k, hp⟩ := New_keys_perm vs h
    refine ⟨s, h1, e, ?_, ?_⟩
    · intro v
      rw [Set.Contains_iff, k v]
    · rw [Set.Count_eq, hp.length_eq]
  · obtain ⟨s0, h0, e, _, _, _, k⟩ := New_nil_spec h
    exact ⟨s0, h0, e, by rw [Set.Count_eq, k]; rfl⟩

/-- C15.  On an allocated set, `Add(v)` returns the receiver, and afterwards `Contains(v)`
is true and `Contains(w)` is unchanged for every other `w`; a second `Add(v)` returns the
receiver again and leaves the heap as it was after the first, so the elements and the
`Count` are those after the first `Add`. -/
theorem Set.Add_idempotent (s : Set E) (v : E) (h : Heap E) (hl : s.Live h) :
    ∃ h1, s.Add v h = some (s, h1) ∧ s.Contains v h1 = true ∧
      (∀ w, w ≠ v → s.Contains w h1 = s.Contains w h) ∧
      ∃ h2, s.Add v h1 = some (s, h2) ∧ h2 = h1 ∧
        (∀ x, s.Contains x h2 = s.Contains x h1) ∧ s.Count h2 = s.Count h1 := by
  obtain ⟨h1, e, _, k⟩ := Set.Add_keys hl v
  have hv : v ∈ s.keys h1 := by simp [k]
  have e2 : s.Add v h1 = some (s, h1) := by simp [Set.Add, mapassign_present hv]
  refine ⟨h1, e, (Set.Contains_iff _ _ _).mpr hv, ?_, h1, e2, rfl, fun _ => rfl, rfl⟩
  intro w hw
  simp [Set.Contains, mapaccess, k, hw]

/-- C15 at `New(1, 2, 3, 4)` and the new element 5. -/
theorem Set.Add_idempotent_witness :
    exampleSet.Live exampleSetHeap ∧
      ∃ h1, exampleSet.Add 5 exampleSetHeap = some (exampleSet, h1) ∧
        exampleSet.Contains 5 h1 = true ∧
        (∀ w, w ≠ 5 → exampleSet.Contains w h1 = exampleSet.Contains w exampleSetHeap) ∧
        ∃ h2, exampleSet.Add 5 h1 = some (exampleSet, h2) ∧ h2 = h1 ∧
          (∀ x, exampleSet.Contains x h2 = exampleSet.Contains x h1) ∧
          exampleSet.Count h2 = exampleSet.Count h1 :=
  ⟨by decide, Set.Add_idempotent exampleSet 5 exampleSetHeap (by decide)⟩

/-- C16.  `Remove(v)` on any set value, `nil` included, returns the receiver without
panicking (the call has no failing result).  Afterwards `Contains(v)` is false and
`Contains(w)` is unchanged for every other `w`.  When `v` was not in the set the whole heap
is left as it was, so `Count` is identical and `Items` holds the same elements, whatever
the range orders of the two `Items` calls. -/
theorem Set.Remove_postcondition (ord ord2 : RangeOrder E) (s : Set E) (v : E) (h : Heap E) :
    (s.Remove v h).1 = s ∧ s.Contains v (s.Remove v h).2 = false ∧
      (∀ w, w ≠ v → s.Contains w (s.Remove v h).2 = s.Contains w h) ∧
      (s.Contains v h = false →
        (s.Remove v h).2 = h ∧ s.Count (s.Remove v h).2 = s.Count h ∧
          (s.Items ord (s.Remove v h).2).Perm (s.Items ord2 h)) := by
  obtain ⟨_, _, k⟩ := Set.Remove_keys s v h
  refine ⟨rfl, ?_, ?_, ?_⟩
  · simp [Set.Contains, mapaccess, k, (s.nodup_keys h).mem_erase_iff]
  · intro w hw
    simp [Set.Contains, mapaccess, k, (s.nodup_keys h).mem_erase_iff, hw]
  · intro hc
    have hh : (s.Remove v h).2 = h := mapdelete_absent ((Set.Contains_eq_false _ _ _).mp hc)
    rw [hh]
    refine ⟨rfl, rfl, ?_⟩
    rw [Set.Items_eq, Set.Items_eq]
    exact (ord.perm _).trans (ord2.perm _).symm

/-- C16 at `New(1, 2, 3, 4)` and the absent element 5. -/
theorem Set.Remove_postcondition_witness :
    exampleSet.Contains 5 exampleSetHeap = false ∧
      (exampleSet.Remove 5 exampleSetHeap).2 = exampleSetHeap ∧
      exampleSet.Count (exampleSet.Remove 5 exampleSetHeap).2 =
        exampleSet.Count exampleSetHeap ∧
      (exampleSet.Items RangeOrder.stored (exampleSet.Remove 5 exampleSetHeap).2).Perm
        (exampleSet.Items RangeOrder.reversed exampleSetHeap) :=
  ⟨by decide, (Set.Remove_postcondition RangeOrder.stored RangeOrder.reversed exampleSet 5
    exampleSetHeap).2.2.2 (by decide)⟩

/-- C17.  For a map value `s` of the heap and every range order, `Clone` returns a set `c`
on which `Contains` agrees with `s` at every element and whose `Count` is that of `s`, and
leaves the keys of `s` as they were.  Any later sequence of `Add`, `Remove` and `Flush`
calls on `c` leaves every `Contains` result and the `Count` of `s` unchanged; and when `s`
is allocated, any such sequence on `s` leaves every `Contains` result and the `Count` of
`c` unchanged. -/
theorem Set.Clone_equal_independent (ord : RangeOrder E) (s : Set E) (h : Heap E)
    (hs : s.Valid h) :
    ∃ c h1, s.Clone ord h = some (c, h1) ∧
      (∀ x, c.Contains x h1 = s.Contains x h) ∧ c.Count h1 = s.Count h ∧
      s.keys h1 = s.keys h ∧
      (∀ cs, ∃ h2, runSetCalls c cs h1 = some h2 ∧
        (∀ x, s.Contains x h2 = s.Contains x h1) ∧ s.Count h2 = s.Count h1) ∧
      (s.Live h → ∀ cs, ∃ h2, runSetCalls s cs h1 = some h2 ∧
        (∀ x, c.Contains x h2 = c.Contains x h1) ∧ c.Count h2 = c.Count h1) := by
  obtain ⟨c, h1, e, cl, cf, g, k⟩ := Set.Clone_keys ord hs
  have hne : s ≠ c := hs.ne_of_fresh cl cf
  refine ⟨c, h1, e, fun x => Set.Contains_congr x (k x), Set.Count_eq_of_mem_iff k,
    g.2 s hs, ?_, ?_⟩
  · intro cs
    obtain ⟨h2, e2, o⟩ := runSetCalls_spec cs cl
    have hk := o.2 s hne
    exact ⟨h2, e2, fun x => by simp only [Set.Contains, mapaccess, hk],
      by simp only [Set.Count, maplen, hk]⟩
  · intro hl cs
    obtain ⟨h2, e2, o⟩ := runSetCalls_spec cs (g.grows_live hl)
    have hk := o.2 c (Ne.symm hne)
    exact ⟨h2, e2, fun x => by simp only [Set.Contains, mapaccess, hk],
      by simp only [Set.Count, maplen, hk]⟩

/-- C17 at `New(1, 2, 3, 4)`. -/
theorem Set.Clone_equal_independent_witness :
    (exampleSet.Valid exampleSetHeap ∧ exampleSet.Live exampleSetHeap) ∧
      ∃ c h1, exampleSet.Clone RangeOrder.reversed exampleSetHeap = some (c, h1) ∧
        (∀ x, c.Contains x h1 = exampleSet.Contains x exampleSetHeap) ∧
        c.Count h1 = exampleSet.Count exampleSetHeap ∧
        exampleSet.keys h1 = exampleSet.keys exampleSetHeap ∧
        (∀ cs, ∃ h2, runSetCalls c cs h1 = some h2 ∧
          (∀ x, exampleSet.Contains x h2 = exampleSet.Contains x h1) ∧
          exampleSet.Count h2 = exampleSet.Count h1) ∧
        ∀ cs, ∃ h2, runSetCalls exampleSet cs h1 = some h2 ∧
          (∀ x, c.Contains x h2 = c.Contains x h1) ∧ c.Count h2 = c.Count h1 := by
  refine ⟨⟨by decide, by decide⟩, ?_⟩
  obtain ⟨c, h1, e, hc, hn, hk, h4, h5⟩ :=
    Set.Clone_equal_independent RangeOrder.reversed exampleSet exampleSetHeap (by decide)
  exact ⟨c, h1, e, hc, hn, hk, h4, h5 (by decide)⟩

/-- C18.  `Flush` on any set value in any state, empty included: afterwards `Count()` is 0,
`Items()` is the empty sequence for every range order, and `Contains(v)` is false for
every `v`. -/
theorem Set.Flush_empties (ord : RangeOrder E) (s : Set E) (h : Heap E) :
    s.Count (s.Flush h) = 0 ∧ s.Items ord (s.Flush h) = [] ∧
      ∀ v, s.Contains v (s.Flush h) = false := by
  obtain ⟨_, k⟩ := Set.Flush_keys s h
  refine ⟨by rw [Set.Count_eq, k]; rfl, ?_, ?_⟩
  · rw [Set.Items_eq, k]
    exact (ord.perm []).eq_nil
  · intro v
    simp [Set.Contains, mapaccess, k]

/-- C19.  For every set value, every state and every range order, `Items()` has no
duplicates, its length is `Count()`, and `v` occurs in it iff `Contains(v)`.  For a set
just built by `New` from a list of values, `Items()` is a rearrangement of the distinct
values of the list, and of the list itself when it has no duplicates. -/
theorem Set.Items_enumerates (ord : RangeOrder E) (s : Set E) (h : Heap E) :
    (s.Items ord h).Nodup ∧ (s.Items ord h).length = s.Count h ∧
      (∀ v, v ∈ s.Items ord h ↔ s.Contains v h = true) ∧
      ∀ (vs : List E) (h0 : Heap E),
        ∃ n h1, New vs h0 = some (n, h1) ∧ (n.Items ord h1).Perm vs.dedup ∧
          (vs.Nodup → (n.Items ord h1).Perm vs) := by
  refine ⟨?_, ?_, ?_, ?_⟩
  · rw [Set.Items_eq]
    exact (ord.perm _).nodup_iff.mpr (s.nodup_keys h)
  · rw [Set.Items_eq, Set.Count_eq]
    exact (ord.perm _).length_eq
  · intro v
    rw [Set.mem_Items, Set.Contains_iff]
  · intro vs h0
    obtain ⟨n, h1, e, _, hp⟩ := New_keys_perm vs h0
    have hi : (n.Items ord h1).Perm vs.dedup := by
      rw [Set.Items_eq]
      exact (ord.perm _).trans hp
    exact ⟨n, h1, e, hi, fun hnd => by rw [← hnd.dedup]; exact hi⟩

/-- C19 at `New(1, 2, 3, 4)`, whose items are a rearrangement of 1, 2, 3, 4. -/
theorem Set.Items_enumerates_witness :
    [1, 2, 3, 4].Nodup ∧
      ∃ n h1, New [1, 2, 3, 4] ([] : Heap Nat) = some (n, h1) ∧
        (n.Items RangeOrder.reversed h1).Perm [1, 2, 3, 4] := by
  refine ⟨by decide, ?_⟩
  obtain ⟨n, h1, e, _, hp⟩ :=
    (Set.Items_enumerates RangeOrder.reversed exampleSet exampleSetHeap).2.2.2 [1, 2, 3, 4] []
  exact ⟨n, h1, e, hp (by decide)⟩

end Sets
